import Mathlib

/-!
Verification of the `memory` MCP tool (`src/tools/memory.ts`).

The tool stores notes under a real Storage Root
(`MEMORIES_ROOT = join(homedir(), ".mcp", "memories")`) addressed through a
virtual namespace rooted at `/memories`.  This file gives a shallow embedding
of the path translation/validation layer and of the command handlers, working
over `List Char` (the JavaScript engine's view of strings, modulo UTF-16
details that never matter here) so that every definition is executable.

External library semantics that the source calls into are modelled from their
documented behaviour:
  * Node `path.posix.join` / `normalize` / `relative` (segment splitting on
    `'/'`, dropping empty and `"."` segments, resolving `".."`).  One
    deliberate simplification: Node preserves a trailing separator on
    `normalize`'s output while this model drops it; no claim below depends on
    trailing separators.
  * JavaScript `String.prototype.replace` with a *string* pattern: first
    occurrence only, with `$`-substitution (`$$`, `$&`, back-quote and quote
    forms) applied to the replacement.
  * JavaScript truthiness as used by `assert(x)`: `undefined` and `""` (and
    the number `0`) are falsy.
  * zod's `.trim()` transform followed by the three `.refine` checks of
    `pathLike`, in order.
-/

namespace McpMemory

/-! ## Characters and segments -/

abbrev Seg := List Char

/-- Split a character list on a separator, JavaScript `String.split` style:
the empty string yields `[""]`, and a trailing separator yields a trailing
empty segment. -/
def splitOnChar (sep : Char) : List Char → List Seg
  | [] => [[]]
  | c :: rest =>
    let r := splitOnChar sep rest
    if c = sep then [] :: r else (c :: r.headI) :: r.tail

/-- Join segments with `'/'`. -/
def joinSegsChars (segs : List Seg) : List Char := List.intercalate ['/'] segs

/-- A segment that survives Node path normalization: neither empty nor `"."`. -/
def goodSeg (s : Seg) : Bool := !(s.isEmpty || s = ['.'])

/-- Core of Node `path.posix.normalize`: process segments left to right over an
accumulator (held reversed).  Empty and `"."` segments are dropped, `".."`
pops one segment; when the accumulator is empty, `".."` is kept only for
relative paths (`allowAbove = true`) and dropped for absolute ones. -/
def normCoreA (allowAbove : Bool) : List Seg → List Seg → List Seg
  | acc, [] => acc
  | acc, s :: rest =>
    if s.isEmpty || s = ['.'] then normCoreA allowAbove acc rest
    else if s = ['.', '.'] then
      match acc with
      | [] => if allowAbove then normCoreA allowAbove [['.', '.']] rest
              else normCoreA allowAbove [] rest
      | t :: ts => if t = ['.', '.'] then normCoreA allowAbove (s :: t :: ts) rest
                   else normCoreA allowAbove ts rest
    else normCoreA allowAbove (s :: acc) rest

/-- Node `path.posix.normalize` on characters (trailing separators are not
preserved, see module comment). -/
def posixNormalizeChars (l : List Char) : List Char :=
  let abs : Bool := l.head? == some '/'
  let segs := (normCoreA (!abs) [] (splitOnChar '/' l)).reverse
  if abs then '/' :: joinSegsChars segs
  else if segs.isEmpty then ['.'] else joinSegsChars segs

/-- Node `path.posix.join` on characters: empty parts are dropped, the rest are
concatenated with `'/'` and normalized. -/
def posixJoinChars (a b : List Char) : List Char :=
  if a.isEmpty && b.isEmpty then ['.']
  else if a.isEmpty then posixNormalizeChars b
  else if b.isEmpty then posixNormalizeChars a
  else posixNormalizeChars (a ++ '/' :: b)

/-- Node `path.posix.join` on strings. -/
def posixJoin (a b : String) : String := ⟨posixJoinChars a.data b.data⟩

/-- Drop the common leading segments of two segment lists. -/
def dropCommon : List Seg → List Seg → List Seg × List Seg
  | x :: xs, y :: ys => if x = y then dropCommon xs ys else (x :: xs, y :: ys)
  | xs, ys => (xs, ys)

/-- Node `path.posix.relative` on characters, for absolute arguments: normalize
both, drop the common prefix, then climb with `".."` and descend. -/
def posixRelativeChars (f t : List Char) : List Char :=
  let fs := (normCoreA false [] (splitOnChar '/' f)).reverse
  let ts := (normCoreA false [] (splitOnChar '/' t)).reverse
  let p := dropCommon fs ts
  joinSegsChars (List.replicate p.1.length ['.', '.'] ++ p.2)

/-! ## JavaScript string helpers -/

/-- `containsSub hay needle` is JavaScript `hay.includes(needle)`. -/
def containsSub : List Char → List Char → Bool
  | [], needle => needle.isEmpty
  | c :: t, needle => needle.isPrefixOf (c :: t) || containsSub t needle

/-- Whitespace for JavaScript `String.trim` (the code points that can actually
occur here). -/
def jsWhitespace (c : Char) : Bool :=
  c = ' ' || c = '\t' || c = '\n' || c = '\r' || c = '\x0b' || c = '\x0c'

/-- JavaScript `String.trim` on characters. -/
def jsTrimChars (l : List Char) : List Char :=
  ((l.dropWhile jsWhitespace).reverse.dropWhile jsWhitespace).reverse

/-! ## Path translation (`toFsPath`, `toVirtualPath`) -/

/-- `virtualPath.replace(/^\/memories\/?/, "")`: strip a leading `/memories`
together with at most one following `/` (the regex is anchored and greedy). -/
def stripMemChars (l : List Char) : List Char :=
  if "/memories/".data.isPrefixOf l then l.drop 10
  else if "/memories".data.isPrefixOf l then l.drop 9
  else l

/-- `MEMORIES_ROOT = join(homedir(), ".mcp", "memories")`, parameterized by the
home directory. -/
def MEMORIES_ROOT (home : String) : String :=
  posixJoin (posixJoin home ".mcp") "memories"

/-- `toFsPath` of the source, parameterized by the Storage Root. -/
def toFsPath (root virtualPath : String) : String :=
  posixJoin root ⟨stripMemChars virtualPath.data⟩

/-- `toVirtualPath` of the source: `"/memories/" + relative(MEMORIES_ROOT, fsPath)`. -/
def toVirtualPath (root fsPath : String) : String :=
  "/memories/" ++ (⟨posixRelativeChars root.data fsPath.data⟩ : String)

/-! ## The zod `pathLike` validator -/

/-- The 12 case variants matched by the regex `/%2e%2e|%2e%2f|%2e%5c/i`
(the digits `2`, `5` and the `%` sign have no case, the letters do). -/
def encVariantsCode : List (List Char) :=
  ["%2e%2e", "%2e%2E", "%2E%2e", "%2E%2E",
   "%2e%2f", "%2e%2F", "%2E%2f", "%2E%2F",
   "%2e%5c", "%2e%5C", "%2E%5c", "%2E%5C"].map String.data

/-- The test performed by `/%2e%2e|%2e%2f|%2e%5c/i`. -/
def regexTraversal (l : List Char) : Bool :=
  encVariantsCode.any (fun v => containsSub l v)

/-- The `pathLike` zod schema: `.trim()` transform, then the three `.refine`
checks in order.  On success the *trimmed* value is what the handlers see. -/
def pathLike (p : String) : Except String String :=
  let t := jsTrimChars p.data
  if !("/memories".data.isPrefixOf t) then
    .error "Path must start with /memories"
  else if containsSub t ['.', '.'] then
    .error "Path must not contain '..' to prevent directory traversal"
  else if regexTraversal t then
    .error "Path must not contain URL-encoded traversal sequences like %2e%2e or %2f"
  else .ok ⟨t⟩

/-- Whether a validation outcome is a rejection. -/
def isErr : Except String String → Bool
  | .error _ => true
  | .ok _ => false

/-! ## Spec-side notion of an encoded traversal sequence (for claim C2)

The spec asks that validation reject "any encoding of `..`, `../`, or `..\`,
case-insensitive": each character independently either literal or
percent-encoded (with either hex letter case), at least one character
actually percent-encoded. -/

def dotReps : List String := [".", "%2e", "%2E"]
def slashReps : List String := ["/", "%2f", "%2F"]
def backslashReps : List String := ["\\", "%5c", "%5C"]

/-- All percent-encoded variants of `..`, `../`, `..\` per the spec's words. -/
def specEncVariants : List (List Char) :=
  ((dotReps.flatMap fun d1 => dotReps.flatMap fun d2 =>
      [d1 ++ d2] ++ slashReps.map (fun s => d1 ++ d2 ++ s)
        ++ backslashReps.map (fun s => d1 ++ d2 ++ s)).filter
    (fun v => v.data.contains '%')).map String.data

/-- Spec-side test: does the path contain a percent-encoded traversal
sequence in the sense of the claim? -/
def specEncTraversal (l : List Char) : Bool :=
  specEncVariants.any (fun v => containsSub l v)

/-- The rejection condition exactly as claim C2 states it. -/
def claimC2Cond (p : String) : Bool :=
  (!("/memories".data.isPrefixOf p.data)) || containsSub p.data ['.', '.']
    || specEncTraversal p.data

/-! ## Normal-form paths and containment -/

/-- An absolute path from (already normalized) segments. -/
def absPath (R : List Seg) : String := ⟨'/' :: joinSegsChars R⟩

/-- A segment as it can occur in a normalized absolute path under the root:
nonempty, not a dot segment, and without separators. -/
def segClean (s : Seg) : Bool :=
  goodSeg s && !(s == ['.', '.']) && !s.any (fun c => c == '/')

/-- `q` equals the root or lies strictly below it. -/
def underRootB (root q : String) : Bool :=
  q == root || (root.data ++ ['/']).isPrefixOf q.data

/-- Segment view of a virtual path with empty and `"."` segments dropped: the
spec's "normalization accounts for trailing-slash and redundant-segment
differences only". -/
def vnormS (p : String) : List Seg := (splitOnChar '/' p.data).filter goodSeg

/-! ## Error taxonomy and JavaScript truthiness

The source distinguishes failures only by `assert` message; the spec names
the classes.  Each `assert` site is mapped to its class, message preserved. -/

inductive MemError where
  | missingArgument (msg : String)
  | notFound (msg : String)
  | notMatched (msg : String)
  | ioFailure (msg : String)
deriving DecidableEq, Repr

instance {ε α : Type} [DecidableEq ε] [DecidableEq α] : DecidableEq (Except ε α) :=
  fun x y =>
    match x, y with
    | .ok a, .ok b =>
      match decEq a b with
      | isTrue h => isTrue (by rw [h])
      | isFalse h => isFalse (fun hh => by cases hh; exact h rfl)
    | .error a, .error b =>
      match decEq a b with
      | isTrue h => isTrue (by rw [h])
      | isFalse h => isFalse (fun hh => by cases hh; exact h rfl)
    | .ok _, .error _ => isFalse (fun hh => by cases hh)
    | .error _, .ok _ => isFalse (fun hh => by cases hh)

/-- JavaScript truthiness of an optional string argument: `undefined` and the
empty string are falsy (`assert(path)` & co.). -/
def truthy : Option String → Bool
  | none => false
  | some s => !s.data.isEmpty

/-- JavaScript truthiness of an optional number argument: `undefined` and `0`
are falsy. -/
def truthyNat : Option Nat → Bool
  | none => false
  | some n => n != 0

/-- JavaScript `a || b` for an optional string `a` (used by
`file_text || ""`): `undefined` and `""` fall through to `b`. -/
def jsOrElse (a : Option String) (b : String) : String :=
  match a with
  | none => b
  | some s => if s.data.isEmpty then b else s

/-! ## JavaScript `String.prototype.replace` with a string pattern -/

/-- Split at the first occurrence of `needle`: `some (before, after)` with
`hay = before ++ needle ++ after`, earliest `before`. -/
def firstSplit (hay needle : List Char) : Option (List Char × List Char) :=
  if needle.isPrefixOf hay then some ([], hay.drop needle.length)
  else
    match hay with
    | [] => none
    | c :: rest => (firstSplit rest needle).map (fun p => (c :: p.1, p.2))

/-- GetSubstitution for a string pattern: `$$` is a literal dollar, `$&` the
matched substring, `` $` `` the text before the match, `$'` the text after;
anything else after `$` is literal.  (With a string pattern there are no
capture groups, so `$n`/`$<name>` stay literal.) -/
def expandRepl (matched before after : List Char) : List Char → List Char
  | '$' :: c :: rest =>
    if c = '$' then '$' :: expandRepl matched before after rest
    else if c = '&' then matched ++ expandRepl matched before after rest
    else if c = Char.ofNat 96 then before ++ expandRepl matched before after rest
    else if c = Char.ofNat 39 then after ++ expandRepl matched before after rest
    else '$' :: c :: expandRepl matched before after rest
  | c :: rest => c :: expandRepl matched before after rest
  | [] => []

/-- JavaScript `s.replace(old, new)` with string arguments: replace the first
occurrence of `old`, applying `$`-substitution to `new`; if `old` does not
occur, return `s` unchanged. -/
def jsReplaceFirstChars (s old new : List Char) : List Char :=
  match firstSplit s old with
  | none => s
  | some (b, a) => b ++ expandRepl old b a new ++ a

/-! ## Filesystem model

A directory tree for the recursive listing, and a node (file or directory)
for what a resolved real path points at.  The handlers below receive the node
living at `toFsPath(root, path)` as an explicit argument; every other aspect
of the handler (argument checks, message strings, content transformation) is
translated directly from the source. -/

inductive Dirent where
  | file (name : String)
  | dir (name : String) (children : List Dirent)

inductive FsNode where
  | file (content : String)
  | dir (children : List Dirent)

def direntName : Dirent → String
  | .file n => n
  | .dir n _ => n

/-- A directory-entry name as `readdir` can produce it: nonempty, no `/`, and
not one of the dot entries (which `readdir` never returns). -/
def nameOk (n : String) : Bool :=
  !n.data.isEmpty && !n.data.any (fun c => c == '/') && n != "." && n != ".."

mutual
/-- Well-formedness of a tree: every name is a legal directory-entry name and
sibling names are distinct (a real filesystem guarantees both). -/
def wfDirent : Dirent → Bool
  | .file n => nameOk n
  | .dir n cs => nameOk n && wfMany cs
def wfMany : List Dirent → Bool
  | [] => true
  | e :: rest =>
    wfDirent e && !((rest.map direntName).contains (direntName e)) && wfMany rest
end

mutual
/-- The `walk` of `listDirectory`: emit each entry (directories marked by the
walk caller), directories before their subtrees, in `readdir` order. -/
def walkOne (cur : String) : Dirent → List (String × Bool)
  | .file n => [(posixJoin cur n, false)]
  | .dir n cs => (posixJoin cur n, true) :: walkMany (posixJoin cur n) cs
def walkMany (cur : String) : List Dirent → List (String × Bool)
  | [] => []
  | e :: rest => walkOne cur e ++ walkMany cur rest
end

mutual
/-- Ghost walk over segment paths (relative to the Storage Root), used to
reason about the string-level walk. -/
def walkSegsOne (pre : List Seg) : Dirent → List (List Seg × Bool)
  | .file n => [(pre ++ [n.data], false)]
  | .dir n cs => (pre ++ [n.data], true) :: walkSegsMany (pre ++ [n.data]) cs
def walkSegsMany (pre : List Seg) : List Dirent → List (List Seg × Bool)
  | [] => []
  | e :: rest => walkSegsOne pre e ++ walkSegsMany pre rest
end

/-- The entries of the tree rooted at virtual segment path `pre`, as a
relation: files and directories at any depth. -/
inductive IsDesc : List Seg → List Dirent → List Seg → Bool → Prop where
  | file {pre : List Seg} {cs : List Dirent} {n : String}
      (h : Dirent.file n ∈ cs) : IsDesc pre cs (pre ++ [n.data]) false
  | dir {pre : List Seg} {cs : List Dirent} {n : String} {gs : List Dirent}
      (h : Dirent.dir n gs ∈ cs) : IsDesc pre cs (pre ++ [n.data]) true
  | deeper {pre : List Seg} {cs : List Dirent} {n : String} {gs : List Dirent}
      {s : List Seg} {b : Bool}
      (h : Dirent.dir n gs ∈ cs) (hd : IsDesc (pre ++ [n.data]) gs s b) :
      IsDesc pre cs s b

/-- `listDirectory` of the source.  `exists_` is the `pathExists` check; on a
missing path the sentinel is returned before any walk. -/
def listDirectory (root : String) (exists_ : Bool) (fsPath : String)
    (cs : List Dirent) : String :=
  if !exists_ then "Directory is empty or does not exist."
  else
    let entries := (walkMany fsPath cs).map
      (fun e => toVirtualPath root e.1 ++ (if e.2 then "/" else ""))
    if entries.length > 0 then ⟨List.intercalate ['\n'] (entries.map String.data)⟩
    else "No files found."

/-! ## Command handlers -/

/-- `handleView`.  `node` is what exists at `toFsPath(root, path)` (`none` if
nothing does). -/
def handleView (root : String) (node : Option FsNode) (path : Option String)
    (range : Option (Nat × Nat)) : Except MemError String :=
  if truthy path then
    let fsPath := toFsPath root (path.getD "")
    match node with
    | none => .error (.notFound ("Path does not exist: " ++ path.getD ""))
    | some (.dir cs) => .ok (listDirectory root true fsPath cs)
    | some (.file c) =>
      match range with
      | some (s, e) =>
        .ok ⟨List.intercalate ['\n']
              (((splitOnChar '\n' c.data).drop (s - 1)).take (e - (s - 1)))⟩
      | none => .ok c
  else .error (.missingArgument "path is required for view command")

/-- `handleCreate`: unconditional overwrite with `file_text || ""` (writing
over an existing directory would raise from the filesystem itself). -/
def handleCreate (node : Option FsNode) (path file_text : Option String) :
    Except MemError String × Option FsNode :=
  if truthy path then
    match node with
    | some (.dir _) =>
      (.error (.ioFailure "EISDIR: illegal operation on a directory"), node)
    | _ => (.ok ("Created: " ++ path.getD ""), some (.file (jsOrElse file_text "")))
  else (.error (.missingArgument "path is required for create command"), node)

/-- `handleStrReplace`: truthiness asserts in source order, then existence,
then the `includes` check, then `content.replace(old_str, new_str)`. -/
def handleStrReplace (node : Option FsNode) (path old_str new_str : Option String) :
    Except MemError String × Option FsNode :=
  if !truthy path then
    (.error (.missingArgument "path is required for str_replace command"), node)
  else if !truthy old_str then
    (.error (.missingArgument "old_str is required for str_replace command"), node)
  else if !truthy new_str then
    (.error (.missingArgument "new_str is required for str_replace command"), node)
  else
    match node with
    | none => (.error (.notFound ("File does not exist: " ++ path.getD "")), node)
    | some (.dir _) => (.error (.ioFailure "EISDIR: illegal operation on a directory"), node)
    | some (.file c) =>
      let o := old_str.getD ""
      let n := new_str.getD ""
      if containsSub c.data o.data then
        (.ok ("Replaced in " ++ path.getD ""),
         some (.file ⟨jsReplaceFirstChars c.data o.data n.data⟩))
      else
        (.error (.notMatched ("String not found in file: \"" ++ o ++ "\"")), node)

/-- `handleInsert`: truthiness asserts, existence, then
`lines.splice(insert_line - 1, 0, insert_text)` and rejoin. -/
def handleInsert (node : Option FsNode) (path : Option String)
    (insert_line : Option Nat) (insert_text : Option String) :
    Except MemError String × Option FsNode :=
  if !truthy path then
    (.error (.missingArgument "path is required for insert command"), node)
  else if !truthyNat insert_line then
    (.error (.missingArgument "insert_line is required for insert command"), node)
  else if !truthy insert_text then
    (.error (.missingArgument "insert_text is required for insert command"), node)
  else
    match node with
    | none => (.error (.notFound ("File does not exist: " ++ path.getD "")), node)
    | some (.dir _) => (.error (.ioFailure "EISDIR: illegal operation on a directory"), node)
    | some (.file c) =>
      let k := insert_line.getD 0
      let lines := splitOnChar '\n' c.data
      let newLines :=
        lines.take (k - 1) ++ [(insert_text.getD "").data] ++ lines.drop (k - 1)
      (.ok ("Inserted at line " ++ toString k ++ " in " ++ path.getD ""),
       some (.file ⟨List.intercalate ['\n'] newLines⟩))

/-- Content of an optional node, when it is a file. -/
def contentOf : Option FsNode → Option String
  | some (.file c) => some c
  | _ => none

/-- Whether an optional node is anything but an existing directory. -/
def notDir : Option FsNode → Bool
  | some (.dir _) => false
  | _ => true

/-! # Helper lemmas -/

theorem string_data_mk (l : List Char) : (String.mk l).data = l := rfl

theorem string_mk_data (s : String) : String.mk s.data = s := by cases s; rfl

theorem string_data_append (s t : String) : (s ++ t).data = s.data ++ t.data := by
  cases s; cases t; rfl

theorem string_ne_of_data_ne {s t : String} (h : s.data ≠ t.data) : s ≠ t := by
  intro he; exact h (by rw [he])

theorem truthy_some {p : String} (hp : p ≠ "") : truthy (some p) = true := by
  obtain ⟨l⟩ := p
  cases l with
  | nil => exact absurd rfl hp
  | cons c t => rfl

/-! ## `splitOnChar` -/

theorem splitOnChar_cons_pos (sep : Char) (rest : List Char) :
    splitOnChar sep (sep :: rest) = [] :: splitOnChar sep rest := by
  simp [splitOnChar]

theorem splitOnChar_cons_neg {sep c : Char} (rest : List Char) (h : ¬c = sep) :
    splitOnChar sep (c :: rest)
      = (c :: (splitOnChar sep rest).headI) :: (splitOnChar sep rest).tail := by
  simp [splitOnChar, h]

theorem splitOnChar_ne_nil (sep : Char) (l : List Char) : splitOnChar sep l ≠ [] := by
  cases l with
  | nil => simp [splitOnChar]
  | cons c rest =>
    by_cases h : c = sep <;> simp [splitOnChar, h]

theorem headI_prefix_of_splitOnChar (sep : Char) (l : List Char) :
    (splitOnChar sep l).headI <+: l := by
  induction l with
  | nil => simp [splitOnChar]
  | cons c rest ih =>
    by_cases h : c = sep
    · subst h; rw [splitOnChar_cons_pos]; simp
    · rw [splitOnChar_cons_neg rest h]
      simpa [List.headI] using (List.prefix_cons_inj c).mpr ih

theorem splitOnChar_cons_structure (sep c : Char) (rest : List Char) (h : ¬c = sep) :
    ∀ x ∈ splitOnChar sep (c :: rest),
      x = c :: (splitOnChar sep rest).headI ∨ x ∈ (splitOnChar sep rest).tail := by
  intro x hx
  rw [splitOnChar_cons_neg rest h, List.mem_cons] at hx
  exact hx

theorem mem_of_mem_tail_splitOnChar {sep : Char} {l : List Char} {x : Seg}
    (hx : x ∈ (splitOnChar sep l).tail) : x ∈ splitOnChar sep l := by
  cases hsp : splitOnChar sep l with
  | nil => exact absurd hsp (splitOnChar_ne_nil sep l)
  | cons s ss => rw [hsp] at hx; exact List.mem_cons_of_mem s hx

theorem splitOnChar_append (sep : Char) (l₁ l₂ : List Char) :
    splitOnChar sep (l₁ ++ sep :: l₂) = splitOnChar sep l₁ ++ splitOnChar sep l₂ := by
  induction l₁ with
  | nil => simp [splitOnChar]
  | cons c rest ih =>
    by_cases h : c = sep
    · simp [splitOnChar, h, ih]
    · obtain ⟨s, ss, hss⟩ : ∃ s ss, splitOnChar sep rest = s :: ss := by
        cases hsp : splitOnChar sep rest with
        | nil => exact absurd hsp (splitOnChar_ne_nil sep rest)
        | cons s ss => exact ⟨s, ss, rfl⟩
      simp [splitOnChar, h, ih, hss]

theorem splitOnChar_not_mem (sep : Char) {l : List Char} (h : sep ∉ l) :
    splitOnChar sep l = [l] := by
  induction l with
  | nil => simp [splitOnChar]
  | cons c rest ih =>
    have hc : ¬(c = sep) := fun hh => h (by simp [hh])
    have hr : sep ∉ rest := fun hh => h (List.mem_cons_of_mem _ hh)
    simp [splitOnChar, hc, ih hr]

theorem mem_splitOnChar_not_sep (sep : Char) {l : List Char} :
    ∀ s ∈ splitOnChar sep l, sep ∉ s := by
  induction l with
  | nil => simp [splitOnChar]
  | cons c rest ih =>
    by_cases h : c = sep
    · subst h
      intro x hx
      rw [splitOnChar_cons_pos, List.mem_cons] at hx
      rcases hx with rfl | hx
      · simp
      · exact ih x hx
    · intro x hx
      rcases splitOnChar_cons_structure sep c rest h x hx with rfl | hx
      · have hh : (splitOnChar sep rest).headI ∈ splitOnChar sep rest := by
          cases hsp : splitOnChar sep rest with
          | nil => exact absurd hsp (splitOnChar_ne_nil sep rest)
          | cons s ss => simp [List.headI]
        have := ih _ hh
        simp only [List.mem_cons]
        rintro (rfl | hmem)
        · exact h rfl
        · exact this hmem
      · exact ih x (mem_of_mem_tail_splitOnChar hx)

theorem infix_of_mem_splitOnChar (sep : Char) {l : List Char} :
    ∀ s ∈ splitOnChar sep l, s <:+: l := by
  induction l with
  | nil => simp [splitOnChar]
  | cons c rest ih =>
    by_cases h : c = sep
    · subst h
      intro x hx
      rw [splitOnChar_cons_pos, List.mem_cons] at hx
      rcases hx with rfl | hx
      · exact List.nil_infix
      · exact (ih x hx).trans (List.infix_cons (List.infix_refl rest))
    · intro x hx
      rcases splitOnChar_cons_structure sep c rest h x hx with rfl | hx
      · exact ((List.prefix_cons_inj c).mpr (headI_prefix_of_splitOnChar sep rest)).isInfix
      · exact (ih x (mem_of_mem_tail_splitOnChar hx)).trans
          (List.infix_cons (List.infix_refl rest))

theorem splitOnChar_intercalate (sep : Char) (segs : List Seg) (h₁ : segs ≠ [])
    (h₂ : ∀ s ∈ segs, sep ∉ s) :
    splitOnChar sep (List.intercalate [sep] segs) = segs := by
  induction segs with
  | nil => exact absurd rfl h₁
  | cons x rest ih =>
    cases rest with
    | nil =>
      simp only [List.intercalate]
      simpa [List.intersperse] using splitOnChar_not_mem sep (h₂ x (by simp))
    | cons y rest2 =>
      have hc : List.intercalate [sep] (x :: y :: rest2)
          = x ++ sep :: List.intercalate [sep] (y :: rest2) := by
        simp [List.intercalate, List.intersperse]
      rw [hc, splitOnChar_append, splitOnChar_not_mem sep (h₂ x (by simp))]
      rw [ih (by simp) (fun s hs => h₂ s (List.mem_cons_of_mem x hs))]
      rfl

theorem intercalate_append_of_ne_nil (sep : Char) {xs ys : List Seg}
    (hx : xs ≠ []) (hy : ys ≠ []) :
    List.intercalate [sep] (xs ++ ys)
      = List.intercalate [sep] xs ++ sep :: List.intercalate [sep] ys := by
  induction xs with
  | nil => exact absurd rfl hx
  | cons x rest ih =>
    cases rest with
    | nil =>
      obtain ⟨y, ys2, rfl⟩ : ∃ y ys2, ys = y :: ys2 := by
        cases ys with
        | nil => exact absurd rfl hy
        | cons y ys2 => exact ⟨y, ys2, rfl⟩
      simp [List.intercalate, List.intersperse]
    | cons x2 rest2 =>
      have h1 : List.intercalate [sep] ((x :: x2 :: rest2) ++ ys)
          = x ++ sep :: List.intercalate [sep] ((x2 :: rest2) ++ ys) := by
        simp [List.intercalate, List.intersperse]
      have h2 : List.intercalate [sep] (x :: x2 :: rest2)
          = x ++ sep :: List.intercalate [sep] (x2 :: rest2) := by
        simp [List.intercalate, List.intersperse]
      rw [h1, ih (by simp), h2]
      simp

/-! ## `containsSub` -/

theorem containsSub_eq_true_iff (hay needle : List Char) :
    containsSub hay needle = true ↔ needle <:+: hay := by
  induction hay with
  | nil =>
    simp only [containsSub, List.isEmpty_iff]
    constructor
    · rintro rfl; exact List.infix_refl []
    · intro h; exact List.eq_nil_of_infix_nil h
  | cons c t ih =>
    simp only [containsSub, Bool.or_eq_true, List.isPrefixOf_iff_prefix, ih,
      List.infix_cons_iff]

theorem containsSub_of_infix {hay hay2 needle : List Char}
    (h : containsSub hay needle = true) (hsub : hay <:+: hay2) :
    containsSub hay2 needle = true := by
  rw [containsSub_eq_true_iff] at h ⊢
  exact h.trans hsub

/-! ## Clean segments -/

theorem segClean_spec {s : Seg} (h : segClean s = true) :
    s ≠ [] ∧ goodSeg s = true ∧ s ≠ ['.', '.'] ∧ '/' ∉ s := by
  simp only [segClean, Bool.and_eq_true, Bool.not_eq_true'] at h
  obtain ⟨⟨h1, h2⟩, h3⟩ := h
  have hdd : s ≠ ['.', '.'] := by
    intro he; rw [he] at h2; simp at h2
  have hsl : '/' ∉ s := by
    intro hm
    have : s.any (fun c => c == '/') = true := List.any_eq_true.mpr ⟨'/', hm, by simp⟩
    rw [this] at h3; cases h3
  have hne : s ≠ [] := by
    intro he; rw [he] at h1; simp [goodSeg] at h1
  exact ⟨hne, h1, hdd, hsl⟩

theorem all_segClean_spec {R : List Seg} (h : R.all segClean = true) :
    (∀ s ∈ R, s ≠ ['.', '.']) ∧ (∀ s ∈ R, '/' ∉ s) ∧ (∀ s ∈ R, goodSeg s = true) := by
  have h' := List.all_eq_true.mp h
  exact ⟨fun s hs => (segClean_spec (h' s hs)).2.2.1,
         fun s hs => (segClean_spec (h' s hs)).2.2.2,
         fun s hs => (segClean_spec (h' s hs)).2.1⟩

/-! ## `normCoreA` -/

theorem normCoreA_append (ab : Bool) (acc l₁ l₂ : List Seg) :
    normCoreA ab acc (l₁ ++ l₂) = normCoreA ab (normCoreA ab acc l₁) l₂ := by
  induction l₁ generalizing acc with
  | nil => rfl
  | cons s rest ih =>
    by_cases h1 : s.isEmpty || s = ['.']
    · simp only [List.cons_append, normCoreA, if_pos h1]; exact ih acc
    · by_cases h2 : s = ['.', '.']
      · cases acc with
        | nil =>
          cases ab with
          | false =>
            simp only [List.cons_append, normCoreA, if_neg h1, if_pos h2,
              Bool.false_eq_true, if_false]
            exact ih []
          | true =>
            simp only [List.cons_append, normCoreA, if_neg h1, if_pos h2, if_true]
            exact ih [['.', '.']]
        | cons t ts =>
          by_cases h3 : t = ['.', '.']
          · simp only [List.cons_append, normCoreA, if_neg h1, if_pos h2, if_pos h3]
            exact ih (s :: t :: ts)
          · simp only [List.cons_append, normCoreA, if_neg h1, if_pos h2, if_neg h3]
            exact ih ts
      · simp only [List.cons_append, normCoreA, if_neg h1, if_neg h2]
        exact ih (s :: acc)

theorem normCoreA_no_dotdot (ab : Bool) (acc l : List Seg)
    (h : ∀ s ∈ l, s ≠ ['.', '.']) :
    normCoreA ab acc l = (l.filter goodSeg).reverse ++ acc := by
  induction l generalizing acc with
  | nil => rfl
  | cons s rest ih =>
    have hrest : ∀ x ∈ rest, x ≠ ['.', '.'] := fun x hx => h x (List.mem_cons_of_mem s hx)
    by_cases h1 : s.isEmpty || s = ['.']
    · have hg : goodSeg s = false := by simp [goodSeg, h1]
      simp only [normCoreA, if_pos h1, List.filter_cons, hg]
      exact ih acc hrest
    · have h2 : ¬s = ['.', '.'] := h s (List.mem_cons_self s rest)
      have hg : goodSeg s = true := by simp [goodSeg, h1]
      simp only [normCoreA, if_neg h1, if_neg h2, List.filter_cons, hg, if_pos]
      rw [ih (s :: acc) hrest]
      simp

/-! ## Normal-form absolute paths -/

theorem absPath_data (R : List Seg) : (absPath R).data = '/' :: joinSegsChars R := rfl

theorem splitOnChar_absPath (R : List Seg) (hR : R ≠ [])
    (hslash : ∀ s ∈ R, '/' ∉ s) :
    splitOnChar '/' (absPath R).data = [] :: R := by
  rw [absPath_data, splitOnChar_cons_pos, joinSegsChars,
    splitOnChar_intercalate '/' R hR hslash]

theorem normCoreA_absPath (R : List Seg) (hR : R ≠ []) (hc : R.all segClean = true) :
    (normCoreA false [] (splitOnChar '/' (absPath R).data)).reverse = R := by
  obtain ⟨hdd, hslash, hgood⟩ := all_segClean_spec hc
  rw [splitOnChar_absPath R hR hslash]
  have h0 : normCoreA false [] ([] :: R) = normCoreA false [] R := by
    simp [normCoreA]
  rw [h0, normCoreA_no_dotdot false [] R hdd]
  rw [List.filter_eq_self.mpr hgood]
  simp

theorem posixNormalizeChars_absPath (R : List Seg) (hR : R ≠ [])
    (hc : R.all segClean = true) :
    posixNormalizeChars (absPath R).data = (absPath R).data := by
  have habs : ((absPath R).data.head? == some '/') = true := by rw [absPath_data]; rfl
  simp only [posixNormalizeChars, habs, Bool.not_true, if_true]
  rw [normCoreA_absPath R hR hc, absPath_data]

theorem posixJoin_absPath (R : List Seg) (hR : R ≠ []) (hc : R.all segClean = true)
    (b : List Char) (hb : ∀ s ∈ splitOnChar '/' b, s ≠ ['.', '.']) :
    posixJoin (absPath R) ⟨b⟩ = absPath (R ++ (splitOnChar '/' b).filter goodSeg) := by
  obtain ⟨hdd, hslash, hgood⟩ := all_segClean_spec hc
  have hane : (absPath R).data.isEmpty = false := by rw [absPath_data]; rfl
  cases b with
  | nil =>
    have hfe : (splitOnChar '/' ([] : List Char)).filter goodSeg = [] := rfl
    rw [hfe, List.append_nil]
    show String.mk (posixJoinChars (absPath R).data []) = absPath R
    have h1 : ((absPath R).data.isEmpty && ([] : List Char).isEmpty) = false := by
      rw [hane]; rfl
    simp only [posixJoinChars, h1, hane, List.isEmpty_nil, Bool.false_eq_true, if_false,
      if_true]
    rw [posixNormalizeChars_absPath R hR hc]
    exact string_mk_data (absPath R)
  | cons c rest =>
    show String.mk (posixJoinChars (absPath R).data (c :: rest)) = _
    have hbne : (c :: rest : List Char).isEmpty = false := rfl
    have h1 : ((absPath R).data.isEmpty && (c :: rest : List Char).isEmpty) = false := by
      rw [hane]; rfl
    simp only [posixJoinChars, h1, hane, hbne, Bool.false_eq_true, if_false]
    have hsplit : splitOnChar '/' ((absPath R).data ++ '/' :: (c :: rest))
        = ([] :: R) ++ splitOnChar '/' (c :: rest) := by
      rw [splitOnChar_append, splitOnChar_absPath R hR hslash]
    have habs : (((absPath R).data ++ '/' :: (c :: rest)).head? == some '/') = true := by
      rw [absPath_data]; rfl
    have hbdd : ∀ s ∈ splitOnChar '/' (c :: rest), s ≠ ['.', '.'] := hb
    simp only [posixNormalizeChars, habs, Bool.not_true, if_true]
    rw [hsplit]
    have h0 : normCoreA false [] (([] :: R) ++ splitOnChar '/' (c :: rest))
        = normCoreA false R.reverse (splitOnChar '/' (c :: rest)) := by
      rw [normCoreA_append]
      congr 1
      have h2 : normCoreA false [] ([] :: R) = normCoreA false [] R := by
        simp [normCoreA]
      rw [h2, normCoreA_no_dotdot false [] R hdd, List.filter_eq_self.mpr hgood]
      simp
    rw [h0, normCoreA_no_dotdot false _ _ hbdd]
    simp [absPath]

theorem dropCommon_append (R T : List Seg) : dropCommon R (R ++ T) = ([], T) := by
  induction R with
  | nil =>
    cases T with
    | nil => rfl
    | cons t ts => rfl
  | cons r rs ih => simp [dropCommon, ih]

theorem posixRelativeChars_absPath (R T : List Seg) (hR : R ≠ [])
    (hcR : R.all segClean = true) (hcT : T.all segClean = true) :
    posixRelativeChars (absPath R).data (absPath (R ++ T)).data
      = List.intercalate ['/'] T := by
  have hcRT : (R ++ T).all segClean = true := by
    rw [List.all_append, hcR, hcT]; rfl
  have hRT : R ++ T ≠ [] := by
    intro h; exact hR (List.append_eq_nil.mp h).1
  simp only [posixRelativeChars, normCoreA_absPath R hR hcR,
    normCoreA_absPath (R ++ T) hRT hcRT, dropCommon_append]
  simp [joinSegsChars]

theorem toVirtualPath_absPath (R T : List Seg) (hR : R ≠ [])
    (hcR : R.all segClean = true) (hcT : T.all segClean = true) :
    toVirtualPath (absPath R) (absPath (R ++ T))
      = ⟨"/memories/".data ++ List.intercalate ['/'] T⟩ := by
  rw [toVirtualPath, posixRelativeChars_absPath R T hR hcR hcT]
  apply congrArg String.mk
  rfl

theorem underRootB_absPath (R E : List Seg) (hR : R ≠ []) :
    underRootB (absPath R) (absPath (R ++ E)) = true := by
  cases E with
  | nil =>
    rw [List.append_nil, underRootB]
    simp
  | cons e es =>
    rw [underRootB]
    apply Bool.or_eq_true_iff.mpr
    right
    rw [List.isPrefixOf_iff_prefix, absPath_data, absPath_data, joinSegsChars,
      joinSegsChars, intercalate_append_of_ne_nil '/' hR (by simp)]
    refine ⟨List.intercalate ['/'] (e :: es), ?_⟩
    simp

theorem stripMemChars_suffix (l : List Char) : stripMemChars l <:+ l := by
  rw [stripMemChars]
  by_cases h10 : "/memories/".data.isPrefixOf l
  · rw [if_pos h10]; exact List.drop_suffix 10 l
  · rw [if_neg h10]
    by_cases h9 : "/memories".data.isPrefixOf l
    · rw [if_pos h9]; exact List.drop_suffix 9 l
    · rw [if_neg h9]

theorem pathLike_ok_spec {p q : String} (h : pathLike p = .ok q) :
    q.data = jsTrimChars p.data ∧ "/memories".data.isPrefixOf q.data = true ∧
      containsSub q.data ['.', '.'] = false ∧ regexTraversal q.data = false := by
  rw [pathLike] at h
  by_cases h1 : "/memories".data.isPrefixOf (jsTrimChars p.data)
  · rw [if_neg (by simp [h1])] at h
    by_cases h2 : containsSub (jsTrimChars p.data) ['.', '.']
    · rw [if_pos h2] at h; cases h
    · rw [if_neg h2] at h
      by_cases h3 : regexTraversal (jsTrimChars p.data)
      · rw [if_pos h3] at h; cases h
      · rw [if_neg h3] at h
        have hq : q = ⟨jsTrimChars p.data⟩ := by
          cases h; rfl
        subst hq
        exact ⟨rfl, by simp [string_data_mk, h1], by simpa [string_data_mk] using h2,
          by simpa [string_data_mk] using h3⟩
  · rw [if_pos (by simp [h1])] at h; cases h

/-! ## `firstSplit` -/

theorem firstSplit_spec {hay needle b a : List Char}
    (h : firstSplit hay needle = some (b, a)) :
    hay = b ++ needle ++ a ∧
      ∀ b2 a2, hay = b2 ++ needle ++ a2 → b.length ≤ b2.length := by
  induction hay generalizing b a with
  | nil =>
    rw [firstSplit] at h
    by_cases hp : needle.isPrefixOf ([] : List Char)
    · rw [if_pos hp] at h
      have hn : needle = [] := List.prefix_nil.mp (List.isPrefixOf_iff_prefix.mp hp)
      injection h with h'
      injection h' with hb ha
      subst hb; subst ha; subst hn
      exact ⟨rfl, fun b2 a2 _ => Nat.zero_le _⟩
    · rw [if_neg hp] at h; cases h
  | cons c rest ih =>
    rw [firstSplit] at h
    by_cases hp : needle.isPrefixOf (c :: rest)
    · rw [if_pos hp] at h
      injection h with h'
      injection h' with hb ha
      subst hb; subst ha
      obtain ⟨t, ht⟩ := List.isPrefixOf_iff_prefix.mp hp
      constructor
      · rw [← ht, List.nil_append, List.drop_left]
      · intro b2 a2 _; exact Nat.zero_le _
    · rw [if_neg hp] at h
      cases hfs : firstSplit rest needle with
      | none => rw [hfs] at h; cases h
      | some p =>
        obtain ⟨b1, a1⟩ := p
        rw [hfs] at h
        injection h with h'
        injection h' with hb ha
        subst ha
        obtain ⟨ih1, ih2⟩ := ih hfs
        constructor
        · rw [← hb]; simp [ih1]
        · intro b2 a2 he
          cases b2 with
          | nil =>
            exfalso
            apply hp
            rw [List.isPrefixOf_iff_prefix]
            exact ⟨a2, by simpa using he.symm⟩
          | cons c2 b2t =>
            have hc2 : c2 = c ∧ rest = b2t ++ needle ++ a2 := by
              rw [List.cons_append, List.cons_append] at he
              exact ⟨(List.cons.injEq _ _ _ _ ▸ he).1.symm, by injection he⟩
            rw [← hb]
            simpa using ih2 b2t a2 hc2.2

theorem firstSplit_isSome_iff (hay needle : List Char) :
    (firstSplit hay needle).isSome = containsSub hay needle := by
  induction hay with
  | nil =>
    rw [firstSplit, containsSub]
    by_cases hp : needle.isPrefixOf ([] : List Char)
    · rw [if_pos hp]
      have : needle = [] := List.prefix_nil.mp (List.isPrefixOf_iff_prefix.mp hp)
      subst this
      rfl
    · rw [if_neg hp]
      cases hne : needle.isEmpty with
      | false => rfl
      | true =>
        exfalso
        apply hp
        rw [List.isEmpty_iff.mp hne]
        rfl
  | cons c rest ih =>
    rw [firstSplit, containsSub]
    by_cases hp : needle.isPrefixOf (c :: rest)
    · rw [if_pos hp, hp]
      rfl
    · rw [if_neg hp]
      have hp' : needle.isPrefixOf (c :: rest) = false := Bool.eq_false_iff.mpr hp
      rw [hp', Bool.false_or, ← ih]
      cases hfs : firstSplit rest needle with
      | none => rfl
      | some p => rfl

/-! ## Derived path facts -/

theorem containsSub_stripMem_false {q : List Char}
    (h : containsSub q ['.', '.'] = false) :
    containsSub (stripMemChars q) ['.', '.'] = false := by
  cases hcs : containsSub (stripMemChars q) ['.', '.'] with
  | false => rfl
  | true =>
    have h2 := containsSub_of_infix hcs (stripMemChars_suffix q).isInfix
    rw [h] at h2
    cases h2

theorem splitOnChar_no_dotdot {b : List Char}
    (hb : containsSub b ['.', '.'] = false) :
    ∀ s ∈ splitOnChar '/' b, s ≠ ['.', '.'] := by
  intro s hs he
  subst he
  have hinf := (containsSub_eq_true_iff _ _).mpr (infix_of_mem_splitOnChar '/' _ hs)
  rw [hb] at hinf
  cases hinf

theorem filter_goodSeg_all_segClean {b : List Char}
    (hb : ∀ s ∈ splitOnChar '/' b, s ≠ ['.', '.']) :
    ((splitOnChar '/' b).filter goodSeg).all segClean = true := by
  rw [List.all_eq_true]
  intro s hs
  rw [List.mem_filter] at hs
  obtain ⟨hmem, hgood⟩ := hs
  have hdd : s ≠ ['.', '.'] := hb s hmem
  have hsl : '/' ∉ s := mem_splitOnChar_not_sep '/' _ hmem
  rw [segClean, hgood]
  have h1 : (s == ['.', '.']) = false := by
    cases hbe : s == ['.', '.'] with
    | false => rfl
    | true => exact absurd (by simpa using hbe) hdd
  have h2 : s.any (fun c => c == '/') = false := by
    cases hbe : s.any (fun c => c == '/') with
    | false => rfl
    | true =>
      obtain ⟨c, hcm, hce⟩ := List.any_eq_true.mp hbe
      have hc' : c = '/' := by simpa using hce
      rw [hc'] at hcm
      exact absurd hcm hsl
  rw [h1, h2]
  rfl

theorem vnormS_memPrefix (E : List Seg) (hcE : E.all segClean = true) :
    vnormS ⟨"/memories/".data ++ List.intercalate ['/'] E⟩
      = "memories".data :: E := by
  obtain ⟨_, hslash, hgood⟩ := all_segClean_spec hcE
  have hkey : ("/memories/".data ++ List.intercalate ['/'] E : List Char)
      = "/memories".data ++ '/' :: List.intercalate ['/'] E := rfl
  rw [vnormS, string_data_mk, hkey, splitOnChar_append]
  rw [show splitOnChar '/' "/memories".data = [[], "memories".data] from rfl]
  rw [List.filter_append]
  rw [show List.filter goodSeg [[], "memories".data] = ["memories".data] from rfl]
  by_cases hE : E = []
  · subst hE; rfl
  · rw [splitOnChar_intercalate '/' E hE hslash, List.filter_eq_self.mpr hgood]
    rfl

/-! ## Directory trees and the recursive walk -/

theorem nameOk_spec {n : String} (h : nameOk n = true) :
    n.data ≠ [] ∧ '/' ∉ n.data ∧ n.data ≠ ['.'] ∧ n.data ≠ ['.', '.'] := by
  simp only [nameOk, Bool.and_eq_true, Bool.not_eq_true', bne_iff_ne, ne_eq] at h
  obtain ⟨⟨⟨h1, h2⟩, h3⟩, h4⟩ := h
  refine ⟨?_, ?_, ?_, ?_⟩
  · intro he; rw [he] at h1; cases h1
  · intro hm
    have : n.data.any (fun c => c == '/') = true := List.any_eq_true.mpr ⟨'/', hm, by simp⟩
    rw [this] at h2; cases h2
  · intro he
    exact h3 (by rw [← string_mk_data n, he])
  · intro he
    exact h4 (by rw [← string_mk_data n, he])

theorem nameOk_segClean {n : String} (h : nameOk n = true) :
    segClean n.data = true := by
  obtain ⟨h1, h2, h3, h4⟩ := nameOk_spec h
  have hie : n.data.isEmpty = false := by
    cases hh : n.data.isEmpty with
    | false => rfl
    | true => exact absurd (List.isEmpty_iff.mp hh) h1
  have hg : goodSeg n.data = true := by
    rw [goodSeg, hie]
    simp [h3]
  have hbe : (n.data == ['.', '.']) = false := beq_eq_false_iff_ne.mpr h4
  have hany : n.data.any (fun c => c == '/') = false := by
    cases hh : n.data.any (fun c => c == '/') with
    | false => rfl
    | true =>
      obtain ⟨c, hcm, hce⟩ := List.any_eq_true.mp hh
      have : c = '/' := by simpa using hce
      rw [this] at hcm
      exact absurd hcm h2
  rw [segClean, hg, hbe, hany]
  rfl

theorem posixJoin_nameOk (S : List Seg) (hS : S ≠ []) (hcS : S.all segClean = true)
    (n : String) (hn : nameOk n = true) :
    posixJoin (absPath S) n = absPath (S ++ [n.data]) := by
  obtain ⟨h1, h2, h3, h4⟩ := nameOk_spec hn
  have hsp : splitOnChar '/' n.data = [n.data] := splitOnChar_not_mem '/' h2
  have hgood : goodSeg n.data = true := (segClean_spec (nameOk_segClean hn)).2.1
  have hdd : ∀ s ∈ splitOnChar '/' n.data, s ≠ ['.', '.'] := by
    rw [hsp]
    intro s hs
    rw [List.mem_singleton] at hs
    rw [hs]
    exact h4
  have := posixJoin_absPath S hS hcS n.data hdd
  rw [string_mk_data] at this
  rw [this, hsp]
  congr 1
  simp [hgood]

/-! ## Well-formedness unfolding -/

theorem wfMany_cons {e : Dirent} {rest : List Dirent} (h : wfMany (e :: rest) = true) :
    wfDirent e = true ∧ ((rest.map direntName).contains (direntName e)) = false ∧
      wfMany rest = true := by
  rw [wfMany] at h
  simp only [Bool.and_eq_true, Bool.not_eq_true'] at h
  exact ⟨h.1.1, h.1.2, h.2⟩

theorem wfDirent_dir {n : String} {gs : List Dirent}
    (h : wfDirent (.dir n gs) = true) : nameOk n = true ∧ wfMany gs = true := by
  rw [wfDirent] at h
  simpa [Bool.and_eq_true] using h

theorem wfDirent_name {e : Dirent} (h : wfDirent e = true) :
    nameOk (direntName e) = true := by
  cases e with
  | file n => simpa [wfDirent, direntName] using h
  | dir n gs => exact (wfDirent_dir h).1

/-! ## The ghost walk: path shapes -/

mutual
theorem walkSegsOne_ext (pre : List Seg) (e : Dirent) (hwf : wfDirent e = true) :
    ∀ x ∈ walkSegsOne pre e, ∃ r : List Seg, r ≠ [] ∧ r.all segClean = true ∧
      r.headI = (direntName e).data ∧ x.1 = pre ++ r := by
  cases e with
  | file n =>
    intro x hx
    rw [walkSegsOne, List.mem_singleton] at hx
    subst hx
    refine ⟨[n.data], by simp, ?_, rfl, rfl⟩
    simp [List.all_eq_true]
    exact nameOk_segClean (by simpa [wfDirent] using hwf)
  | dir n gs =>
    obtain ⟨hn, hgs⟩ := wfDirent_dir hwf
    intro x hx
    rw [walkSegsOne, List.mem_cons] at hx
    rcases hx with rfl | hx
    · refine ⟨[n.data], by simp, ?_, rfl, rfl⟩
      simp [List.all_eq_true]
      exact nameOk_segClean hn
    · obtain ⟨r, hr1, hr2, _, hr4⟩ := walkSegsMany_ext (pre ++ [n.data]) gs hgs x hx
      refine ⟨n.data :: r, by simp, ?_, rfl, by rw [hr4]; simp⟩
      rw [List.all_cons, hr2, nameOk_segClean hn]
      rfl
theorem walkSegsMany_ext (pre : List Seg) (cs : List Dirent) (hwf : wfMany cs = true) :
    ∀ x ∈ walkSegsMany pre cs, ∃ r : List Seg, r ≠ [] ∧ r.all segClean = true ∧
      (∃ e ∈ cs, r.headI = (direntName e).data) ∧ x.1 = pre ++ r := by
  cases cs with
  | nil => intro x hx; rw [walkSegsMany] at hx; cases hx
  | cons e rest =>
    obtain ⟨he, _, hrest⟩ := wfMany_cons hwf
    intro x hx
    rw [walkSegsMany, List.mem_append] at hx
    rcases hx with hx | hx
    · obtain ⟨r, hr1, hr2, hr3, hr4⟩ := walkSegsOne_ext pre e he x hx
      exact ⟨r, hr1, hr2, ⟨e, List.mem_cons_self e rest, hr3⟩, hr4⟩
    · obtain ⟨r, hr1, hr2, ⟨e2, he2, hr3⟩, hr4⟩ := walkSegsMany_ext pre rest hrest x hx
      exact ⟨r, hr1, hr2, ⟨e2, List.mem_cons_of_mem e he2, hr3⟩, hr4⟩
end

/-! ## The ghost walk: no duplicates -/

mutual
theorem walkSegsOne_nodup (pre : List Seg) (e : Dirent) (hwf : wfDirent e = true) :
    ((walkSegsOne pre e).map Prod.fst).Nodup := by
  cases e with
  | file n => simp [walkSegsOne]
  | dir n gs =>
    obtain ⟨hn, hgs⟩ := wfDirent_dir hwf
    rw [walkSegsOne, List.map_cons, List.nodup_cons]
    constructor
    · intro hmem
      obtain ⟨x, hx, hfx⟩ := List.mem_map.mp hmem
      obtain ⟨r, hr1, _, _, hr4⟩ := walkSegsMany_ext (pre ++ [n.data]) gs hgs x hx
      rw [hfx] at hr4
      dsimp only at hr4
      have hlen := congrArg List.length hr4
      simp only [List.length_append] at hlen
      have hrlen : r.length ≠ 0 := fun hh => hr1 (List.length_eq_zero.mp hh)
      omega
    · exact walkSegsMany_nodup (pre ++ [n.data]) gs hgs
theorem walkSegsMany_nodup (pre : List Seg) (cs : List Dirent) (hwf : wfMany cs = true) :
    ((walkSegsMany pre cs).map Prod.fst).Nodup := by
  cases cs with
  | nil => simp [walkSegsMany]
  | cons e rest =>
    obtain ⟨he, hnc, hrest⟩ := wfMany_cons hwf
    rw [walkSegsMany, List.map_append]
    apply List.Nodup.append (walkSegsOne_nodup pre e he)
      (walkSegsMany_nodup pre rest hrest)
    intro a ha hb
    obtain ⟨x, hx, hfx⟩ := List.mem_map.mp ha
    obtain ⟨y, hy, hfy⟩ := List.mem_map.mp hb
    obtain ⟨rx, hrx1, _, hrx3, hrx4⟩ := walkSegsOne_ext pre e he x hx
    obtain ⟨ry, hry1, _, ⟨e2, he2, hry3⟩, hry4⟩ := walkSegsMany_ext pre rest hrest y hy
    have hxy : pre ++ rx = pre ++ ry := by rw [← hrx4, ← hry4, hfx, hfy]
    have hr : rx = ry := List.append_cancel_left hxy
    have hhead : (direntName e).data = (direntName e2).data := by
      rw [← hrx3, ← hry3, hr]
    have hname : direntName e = direntName e2 := by
      rw [← string_mk_data (direntName e), ← string_mk_data (direntName e2), hhead]
    have hmem : direntName e ∈ rest.map direntName := by
      rw [hname]
      exact List.mem_map_of_mem direntName he2
    have : (rest.map direntName).contains (direntName e) = true := by
      exact List.elem_eq_true_of_mem hmem
    rw [this] at hnc
    cases hnc
end

/-! ## The ghost walk enumerates exactly the descendants -/

theorem walkSegsOne_subset {pre : List Seg} {e : Dirent} {cs : List Dirent}
    (he : e ∈ cs) : ∀ x ∈ walkSegsOne pre e, x ∈ walkSegsMany pre cs := by
  induction cs with
  | nil => cases he
  | cons e2 rest ih =>
    intro x hx
    rw [walkSegsMany, List.mem_append]
    rcases List.mem_cons.mp he with rfl | hmem
    · exact Or.inl hx
    · exact Or.inr (ih hmem x hx)

theorem isDesc_weaken {pre : List Seg} {e : Dirent} {rest : List Dirent}
    {s : List Seg} {b : Bool} (h : IsDesc pre rest s b) : IsDesc pre (e :: rest) s b := by
  induction h with
  | file hm => exact IsDesc.file (List.mem_cons_of_mem e hm)
  | dir hm => exact IsDesc.dir (List.mem_cons_of_mem e hm)
  | deeper hm _ ih2 =>
    exact IsDesc.deeper (List.mem_cons_of_mem e hm)
      (by cases ih2 with
        | _ => assumption)

mutual
theorem walkSegsOne_isDesc (pre : List Seg) (e : Dirent) {cs : List Dirent}
    (he : e ∈ cs) : ∀ x ∈ walkSegsOne pre e, IsDesc pre cs x.1 x.2 := by
  cases e with
  | file n =>
    intro x hx
    rw [walkSegsOne, List.mem_singleton] at hx
    subst hx
    exact IsDesc.file he
  | dir n gs =>
    intro x hx
    rw [walkSegsOne, List.mem_cons] at hx
    rcases hx with rfl | hx
    · exact IsDesc.dir he
    · exact IsDesc.deeper he
        (walkSegsMany_isDesc (pre ++ [n.data]) gs x hx)
theorem walkSegsMany_isDesc (pre : List Seg) (cs : List Dirent) :
    ∀ x ∈ walkSegsMany pre cs, IsDesc pre cs x.1 x.2 := by
  cases cs with
  | nil => intro x hx; rw [walkSegsMany] at hx; cases hx
  | cons e rest =>
    intro x hx
    rw [walkSegsMany, List.mem_append] at hx
    rcases hx with hx | hx
    · exact walkSegsOne_isDesc pre e (List.mem_cons_self e rest) x hx
    · exact isDesc_weaken (walkSegsMany_isDesc pre rest x hx)
end

theorem isDesc_mem_walk {pre : List Seg} {cs : List Dirent} {s : List Seg} {b : Bool}
    (h : IsDesc pre cs s b) : (s, b) ∈ walkSegsMany pre cs := by
  induction h with
  | file hm =>
    exact walkSegsOne_subset hm _ (by rw [walkSegsOne]; exact List.mem_singleton.mpr rfl)
  | dir hm =>
    exact walkSegsOne_subset hm _ (by rw [walkSegsOne]; exact List.mem_cons_self _ _)
  | deeper hm _ ih =>
    exact walkSegsOne_subset hm _ (by rw [walkSegsOne]; exact List.mem_cons_of_mem _ ih)

theorem walkSegs_isDesc_iff (pre : List Seg) (cs : List Dirent) (s : List Seg) (b : Bool) :
    IsDesc pre cs s b ↔ (s, b) ∈ walkSegsMany pre cs :=
  ⟨isDesc_mem_walk, fun h => walkSegsMany_isDesc pre cs (s, b) h⟩

/-! ## The ghost walk refines the real walk -/

mutual
theorem walkOne_refine (R : List Seg) (hR : R ≠ []) (hcR : R.all segClean = true)
    (pre : List Seg) (hcpre : pre.all segClean = true) (e : Dirent)
    (hwf : wfDirent e = true) :
    walkOne (absPath (R ++ pre)) e
      = (walkSegsOne pre e).map (fun x => (absPath (R ++ x.1), x.2)) := by
  have hRpre : R ++ pre ≠ [] := fun hh => hR (List.append_eq_nil.mp hh).1
  have hcRpre : (R ++ pre).all segClean = true := by
    rw [List.all_append, hcR, hcpre]; rfl
  cases e with
  | file n =>
    rw [walkOne, walkSegsOne, List.map_singleton]
    rw [posixJoin_nameOk (R ++ pre) hRpre hcRpre n (by simpa [wfDirent] using hwf)]
    rw [List.append_assoc]
  | dir n gs =>
    obtain ⟨hn, hgs⟩ := wfDirent_dir hwf
    rw [walkOne, walkSegsOne, List.map_cons]
    rw [posixJoin_nameOk (R ++ pre) hRpre hcRpre n hn, List.append_assoc]
    congr 1
    have hcpre2 : (pre ++ [n.data]).all segClean = true := by
      rw [List.all_append, hcpre]
      simpa using nameOk_segClean hn
    exact walkMany_refine R hR hcR (pre ++ [n.data]) hcpre2 gs hgs
theorem walkMany_refine (R : List Seg) (hR : R ≠ []) (hcR : R.all segClean = true)
    (pre : List Seg) (hcpre : pre.all segClean = true) (cs : List Dirent)
    (hwf : wfMany cs = true) :
    walkMany (absPath (R ++ pre)) cs
      = (walkSegsMany pre cs).map (fun x => (absPath (R ++ x.1), x.2)) := by
  cases cs with
  | nil => rw [walkMany, walkSegsMany]; rfl
  | cons e rest =>
    obtain ⟨he, _, hrest⟩ := wfMany_cons hwf
    rw [walkMany, walkSegsMany, List.map_append]
    rw [walkOne_refine R hR hcR pre hcpre e he,
      walkMany_refine R hR hcR pre hcpre rest hrest]
end

/-! ## The ghost walk emits a directory before its subtree -/

mutual
theorem walkSegsOne_order (pre : List Seg) (e : Dirent) (hwf : wfDirent e = true) :
    ∀ x y, x ∈ walkSegsOne pre e → y ∈ walkSegsOne pre e →
      x.1 <+: y.1 → x.1 ≠ y.1 → List.Sublist [x, y] (walkSegsOne pre e) := by
  cases e with
  | file n =>
    intro x y hx hy _ hne
    rw [walkSegsOne, List.mem_singleton] at hx hy
    subst hx
    subst hy
    exact absurd rfl hne
  | dir n gs =>
    obtain ⟨hn, hgs⟩ := wfDirent_dir hwf
    intro x y hx hy hpre hne
    rw [walkSegsOne, List.mem_cons] at hx hy
    rcases hx with rfl | hx
    · rcases hy with rfl | hy
      · exact absurd rfl hne
      · rw [walkSegsOne]
        exact (List.singleton_sublist.mpr hy).cons₂ _
    · rcases hy with rfl | hy
      · exfalso
        obtain ⟨r, hr1, _, _, hr4⟩ := walkSegsMany_ext (pre ++ [n.data]) gs hgs x hx
        have hlen := hpre.length_le
        rw [hr4] at hlen
        dsimp only at hlen
        have hrlen : r.length ≠ 0 := fun hh => hr1 (List.length_eq_zero.mp hh)
        rw [List.length_append] at hlen
        omega
      · rw [walkSegsOne]
        exact (walkSegsMany_order (pre ++ [n.data]) gs hgs x y hx hy hpre hne).cons _
theorem walkSegsMany_order (pre : List Seg) (cs : List Dirent) (hwf : wfMany cs = true) :
    ∀ x y, x ∈ walkSegsMany pre cs → y ∈ walkSegsMany pre cs →
      x.1 <+: y.1 → x.1 ≠ y.1 → List.Sublist [x, y] (walkSegsMany pre cs) := by
  cases cs with
  | nil => intro x y hx _ _ _; rw [walkSegsMany] at hx; cases hx
  | cons e rest =>
    obtain ⟨he, hnc, hrest⟩ := wfMany_cons hwf
    intro x y hx hy hpre hne
    rw [walkSegsMany] at hx hy ⊢
    rw [List.mem_append] at hx hy
    rcases hx with hx | hx
    · rcases hy with hy | hy
      · exact (walkSegsOne_order pre e he x y hx hy hpre hne).trans
          (List.sublist_append_left _ _)
      · have h1 : List.Sublist [x] (walkSegsOne pre e) := List.singleton_sublist.mpr hx
        have h2 : List.Sublist [y] (walkSegsMany pre rest) := List.singleton_sublist.mpr hy
        exact h1.append h2
    · rcases hy with hy | hy
      · exfalso
        obtain ⟨rx, hrx1, _, ⟨e2, he2, hrx3⟩, hrx4⟩ :=
          walkSegsMany_ext pre rest hrest x hx
        obtain ⟨ry, hry1, _, hry3, hry4⟩ := walkSegsOne_ext pre e he y hy
        rw [hrx4, hry4] at hpre
        have hrpre : rx <+: ry := (List.prefix_append_right_inj pre).mp hpre
        obtain ⟨hx0, hxt, hhx⟩ : ∃ h0 t, rx = h0 :: t := by
          cases rx with
          | nil => exact absurd rfl hrx1
          | cons a t => exact ⟨a, t, rfl⟩
        obtain ⟨hy0, hyt, hhy⟩ : ∃ h0 t, ry = h0 :: t := by
          cases ry with
          | nil => exact absurd rfl hry1
          | cons a t => exact ⟨a, t, rfl⟩
        have hheads : hx0 = hy0 := by
          obtain ⟨tt, htt⟩ := hrpre
          rw [hhx, hhy, List.cons_append] at htt
          exact (List.cons.injEq _ _ _ _ ▸ htt : _ ∧ _).1
        have hxname : (direntName e2).data = (direntName e).data := by
          rw [← hrx3, ← hry3, hhx, hhy]
          simpa [List.headI] using hheads
        have hname : direntName e2 = direntName e := by
          rw [← string_mk_data (direntName e2), ← string_mk_data (direntName e), hxname]
        have hmem : direntName e ∈ rest.map direntName := by
          rw [← hname]
          exact List.mem_map_of_mem direntName he2
        have : (rest.map direntName).contains (direntName e) = true :=
          List.elem_eq_true_of_mem hmem
        rw [this] at hnc
        cases hnc
      · exact (walkSegsMany_order pre rest hrest x y hx hy hpre hne).trans
          (List.sublist_append_right _ _)
end

/-! ## Listing lines are injective in the entry -/

theorem string_append_marker (A : List Char) (b : Bool) :
    (⟨A⟩ : String) ++ (if b then "/" else "") = ⟨A ++ (if b then ['/'] else [])⟩ := by
  cases b with
  | true => rfl
  | false => rfl

theorem listing_line_inj {s1 s2 : List Seg} {b1 b2 : Bool}
    (hc1 : s1.all segClean = true) (hc2 : s2.all segClean = true)
    (hn1 : s1 ≠ []) (hn2 : s2 ≠ [])
    (he : "/memories/".data ++ List.intercalate ['/'] s1 ++ (if b1 then ['/'] else [])
        = "/memories/".data ++ List.intercalate ['/'] s2 ++ (if b2 then ['/'] else [])) :
    s1 = s2 ∧ b1 = b2 := by
  obtain ⟨_, hsl1, hg1⟩ := all_segClean_spec hc1
  obtain ⟨_, hsl2, hg2⟩ := all_segClean_spec hc2
  rw [List.append_assoc, List.append_assoc] at he
  have he2 : List.intercalate ['/'] s1 ++ (if b1 then ['/'] else [])
      = List.intercalate ['/'] s2 ++ (if b2 then ['/'] else []) :=
    List.append_cancel_left he
  have hs1 := splitOnChar_intercalate '/' s1 hn1 hsl1
  have hs2 := splitOnChar_intercalate '/' s2 hn2 hsl2
  cases b1 with
  | false =>
    cases b2 with
    | false =>
      simp only [Bool.false_eq_true, if_false, List.append_nil] at he2
      refine ⟨?_, rfl⟩
      rw [← hs1, ← hs2, he2]
    | true =>
      exfalso
      simp only [Bool.false_eq_true, if_false, if_true, List.append_nil] at he2
      have hsp := congrArg (splitOnChar '/') he2
      rw [hs1] at hsp
      rw [show (List.intercalate ['/'] s2 ++ ['/'] : List Char)
          = List.intercalate ['/'] s2 ++ '/' :: [] from rfl, splitOnChar_append,
        hs2] at hsp
      have hmem : ([] : Seg) ∈ s1 := by
        rw [hsp]
        exact List.mem_append_right _ (by simp [splitOnChar])
      have := hg1 [] hmem
      simp [goodSeg] at this
  | true =>
    cases b2 with
    | false =>
      exfalso
      simp only [Bool.false_eq_true, if_false, if_true, List.append_nil] at he2
      have hsp := congrArg (splitOnChar '/') he2.symm
      rw [hs2] at hsp
      rw [show (List.intercalate ['/'] s1 ++ ['/'] : List Char)
          = List.intercalate ['/'] s1 ++ '/' :: [] from rfl, splitOnChar_append,
        hs1] at hsp
      have hmem : ([] : Seg) ∈ s2 := by
        rw [hsp]
        exact List.mem_append_right _ (by simp [splitOnChar])
      have := hg2 [] hmem
      simp [goodSeg] at this
    | true =>
      simp only [if_true] at he2
      have he3 : List.intercalate ['/'] s1 = List.intercalate ['/'] s2 :=
        List.append_cancel_right he2
      refine ⟨?_, rfl⟩
      rw [← hs1, ← hs2, he3]

theorem segLine_eq (R : List Seg) (hR : R ≠ []) (hcR : R.all segClean = true)
    (x : List Seg × Bool) (hcx : x.1.all segClean = true) :
    toVirtualPath (absPath R) (absPath (R ++ x.1)) ++ (if x.2 then "/" else "")
      = ⟨"/memories/".data ++ List.intercalate ['/'] x.1
          ++ (if x.2 then ['/'] else [])⟩ := by
  rw [toVirtualPath_absPath R x.1 hR hcR hcx, string_append_marker]

/-! # Claim theorems -/

/-- C1 counterexample: with home `/home/user`, the virtual path
`/memories/../../../etc/passwd` (which only the zod schema layer would
reject) is translated by `toFsPath` to `/home/etc/passwd`, a real path
outside the Storage Root, and `handleCreate` would happily report success
for a write resolved through it. -/
theorem c1_counterexample :
    MEMORIES_ROOT "/home/user" = "/home/user/.mcp/memories" ∧
    toFsPath (MEMORIES_ROOT "/home/user") "/memories/../../../etc/passwd"
      = "/home/etc/passwd" ∧
    underRootB (MEMORIES_ROOT "/home/user")
        (toFsPath (MEMORIES_ROOT "/home/user") "/memories/../../../etc/passwd")
      = false ∧
    (handleCreate (some (.file "old")) (some "/memories/../../../etc/passwd")
        (some "pwned")).1
      = .ok "Created: /memories/../../../etc/passwd" := by
  refine ⟨by decide, by decide, by decide, by decide⟩

/-- C1 (corrected): for every virtual path that *passes* `pathLike`
validation, the translated real path equals the Storage Root or lies
strictly below it.  The containment invariant holds only thanks to the
upstream validation; `toFsPath` itself offers no defense (see the
counterexample). -/
theorem c1_validated_containment (R : List Seg) (hR : R ≠ [])
    (hc : R.all segClean = true) (p q : String) (hv : pathLike p = .ok q) :
    underRootB (absPath R) (toFsPath (absPath R) q) = true := by
  obtain ⟨_, _, hdd, _⟩ := pathLike_ok_spec hv
  have hb := containsSub_stripMem_false hdd
  rw [toFsPath, posixJoin_absPath R hR hc _ (splitOnChar_no_dotdot hb)]
  exact underRootB_absPath R _ hR

/-- C1 witness: the containment theorem applied at a concrete home
directory and virtual path. -/
theorem c1_validated_containment_witness :
    (["home".data, "user".data, ".mcp".data, "memories".data] : List Seg) ≠ [] ∧
    (["home".data, "user".data, ".mcp".data, "memories".data] : List Seg).all
        segClean = true ∧
    pathLike "/memories/notes/a.md" = .ok "/memories/notes/a.md" ∧
    underRootB (absPath ["home".data, "user".data, ".mcp".data, "memories".data])
        (toFsPath (absPath ["home".data, "user".data, ".mcp".data, "memories".data])
          "/memories/notes/a.md") = true :=
  ⟨by decide, by decide, by decide,
    c1_validated_containment _ (by decide) (by decide) "/memories/notes/a.md"
      "/memories/notes/a.md" (by decide)⟩

/-- C2 counterexample: the claimed rejection condition and the implemented
one disagree in both directions.  `/memories/.%2e/x` contains `.%2e`, an
encoding of `..` (second dot percent-encoded), yet validation accepts it;
`/memories/a%2E%2Fb` contains none of the claimed encodings (`%2E%2F`
decodes to `./`, not a traversal), yet validation rejects it. -/
theorem c2_counterexample :
    ¬(isErr (pathLike "/memories/.%2e/x") = true
        ↔ claimC2Cond "/memories/.%2e/x" = true) ∧
    ¬(isErr (pathLike "/memories/a%2E%2Fb") = true
        ↔ claimC2Cond "/memories/a%2E%2Fb" = true) := by
  refine ⟨by decide, by decide⟩

/-- C2 (corrected): validation (after zod's `.trim()`) rejects exactly the
strings whose trimmed form fails the `/memories` prefix check, contains a
literal `..`, or contains one of the three byte sequences `%2e%2e`,
`%2e%2f`, `%2e%5c` case-insensitively — the encodings of `..`, `./` and
`.\`, not the spec's "any encoding of `..`, `../`, `..\`".  Validation is a
pure function by construction. -/
theorem c2_validation_condition (p : String) :
    isErr (pathLike p)
      = (!("/memories".data.isPrefixOf (jsTrimChars p.data))
          || containsSub (jsTrimChars p.data) ['.', '.']
          || regexTraversal (jsTrimChars p.data)) := by
  rw [pathLike]
  by_cases h1 : "/memories".data.isPrefixOf (jsTrimChars p.data)
  · rw [h1]
    simp only [Bool.not_true, Bool.false_or, Bool.false_eq_true, if_false]
    by_cases h2 : containsSub (jsTrimChars p.data) ['.', '.']
    · rw [h2, if_pos rfl]
      rfl
    · have h2' : containsSub (jsTrimChars p.data) ['.', '.'] = false :=
        Bool.eq_false_iff.mpr h2
      rw [h2']
      simp only [Bool.false_eq_true, if_false, Bool.false_or]
      by_cases h3 : regexTraversal (jsTrimChars p.data)
      · rw [h3, if_pos rfl]
        rfl
      · have h3' : regexTraversal (jsTrimChars p.data) = false :=
        Bool.eq_false_iff.mpr h3
        rw [h3']
        simp only [Bool.false_eq_true, if_false]
        rfl
  · have h1' : "/memories".data.isPrefixOf (jsTrimChars p.data) = false :=
      Bool.eq_false_iff.mpr h1
    rw [h1']
    simp only [Bool.not_false, Bool.true_or, if_true]
    rfl

/-- C3 counterexample: on content `aXbXc` with `old_str = "X"` and
`new_str = "$&$&"`, the stored result is `aXXbXc` (JavaScript `$`-pattern
substitution), not the claimed literal `a$&$&bXc`; and with
`old_str = ""` — a substring of every content — the command errors out
instead of replacing. -/
theorem c3_counterexample :
    contentOf (handleStrReplace (some (.file "aXbXc")) (some "/memories/m.md")
        (some "X") (some "$&$&")).2 = some "aXXbXc" ∧
    some ("aXXbXc" : String) ≠ some ("a$&$&bXc" : String) ∧
    containsSub "abc".data "".data = true ∧
    (handleStrReplace (some (.file "abc")) (some "/memories/m.md") (some "")
        (some "Z")).1
      = .error (.missingArgument "old_str is required for str_replace command") := by
  refine ⟨by decide, by decide, by decide, by decide⟩

/-- C3 (corrected): for a nonempty `old_str` occurring in the content of an
existing file and a nonempty `new_str`, `str_replace` rewrites exactly the
first occurrence, inserting `new_str` after JavaScript `$`-substitution
(`$$`, `$&`, back-quote, quote); everything before and after that first
occurrence — including later occurrences of `old_str` — is unchanged.  When
`old_str` does not occur, it fails with `NotMatched` and the file content is
untouched. -/
theorem c3_str_replace (c p o n : String) (hp : p ≠ "") (ho : o ≠ "")
    (hn : n ≠ "") :
    (containsSub c.data o.data = true →
      ∃ b a, c.data = b ++ o.data ++ a ∧
        (∀ b2 a2, c.data = b2 ++ o.data ++ a2 → b.length ≤ b2.length) ∧
        handleStrReplace (some (.file c)) (some p) (some o) (some n)
          = (.ok ("Replaced in " ++ p),
             some (.file ⟨b ++ expandRepl o.data b a n.data ++ a⟩))) ∧
    (containsSub c.data o.data = false →
      handleStrReplace (some (.file c)) (some p) (some o) (some n)
        = (.error (.notMatched ("String not found in file: \"" ++ o ++ "\"")),
           some (.file c))) := by
  have htp := truthy_some hp
  have hto := truthy_some ho
  have htn := truthy_some hn
  constructor
  · intro hcon
    have hsome : (firstSplit c.data o.data).isSome = true := by
      rw [firstSplit_isSome_iff, hcon]
    obtain ⟨⟨b, a⟩, hfs⟩ := Option.isSome_iff_exists.mp hsome
    obtain ⟨hdec, hmin⟩ := firstSplit_spec hfs
    refine ⟨b, a, hdec, hmin, ?_⟩
    simp only [handleStrReplace, htp, hto, htn, Bool.not_true, Bool.false_eq_true,
      if_false, Option.getD_some, hcon, if_pos]
    rw [jsReplaceFirstChars, hfs]
  · intro hcon
    simp only [handleStrReplace, htp, hto, htn, Bool.not_true, Bool.false_eq_true,
      if_false, Option.getD_some, hcon]

/-- C3 witness: the replacement theorem applied to content `aXbXc`,
`old_str = "X"`, `new_str = "Y"`. -/
theorem c3_str_replace_witness :
    ("/memories/m.md" : String) ≠ "" ∧ ("X" : String) ≠ "" ∧ ("Y" : String) ≠ "" ∧
    ((containsSub "aXbXc".data "X".data = true →
      ∃ b a, "aXbXc".data = b ++ "X".data ++ a ∧
        (∀ b2 a2, "aXbXc".data = b2 ++ "X".data ++ a2 → b.length ≤ b2.length) ∧
        handleStrReplace (some (.file "aXbXc")) (some "/memories/m.md") (some "X")
            (some "Y")
          = (.ok ("Replaced in " ++ "/memories/m.md"),
             some (.file ⟨b ++ expandRepl "X".data b a "Y".data ++ a⟩))) ∧
    (containsSub "aXbXc".data "X".data = false →
      handleStrReplace (some (.file "aXbXc")) (some "/memories/m.md") (some "X")
          (some "Y")
        = (.error (.notMatched ("String not found in file: \"" ++ "X" ++ "\"")),
           some (.file "aXbXc")))) :=
  ⟨by decide, by decide, by decide,
    c3_str_replace "aXbXc" "/memories/m.md" "X" "Y" (by decide) (by decide)
      (by decide)⟩

/-- C4 (code_bug): `str_replace` with all three arguments supplied but
`new_str = ""` (or `old_str = ""`) fails with the "is required"
`MissingArgument` assertion even though the argument is present — JavaScript
truthiness treats the empty string as absent.  With a genuinely missing
argument the same error fires, as the claim says. -/
theorem c4_empty_strings_rejected :
    (handleStrReplace (some (.file "x marks")) (some "/memories/a.md") (some "x")
        (some "")).1
      = .error (.missingArgument "new_str is required for str_replace command") ∧
    (handleStrReplace (some (.file "x marks")) (some "/memories/a.md") (some "")
        (some "y")).1
      = .error (.missingArgument "old_str is required for str_replace command") ∧
    (handleStrReplace (some (.file "x marks")) none (some "x") (some "y")).1
      = .error (.missingArgument "path is required for str_replace command") := by
  refine ⟨by decide, by decide, by decide⟩

/-- C5 (confirmed): viewing an existing file with `view_range = [start,
end]`, `1 ≤ start ≤ end`, returns the lines obtained by splitting on `\n`,
slicing `[start-1, end)` with clamping to the available lines, and
rejoining with `\n` — i.e. lines `start .. min(end, N)`. -/
theorem c5_view_range (root c p : String) (hp : p ≠ "") (s e : Nat)
    (h1 : 1 ≤ s) (h2 : s ≤ e) :
    handleView root (some (.file c)) (some p) (some (s, e))
      = .ok ⟨List.intercalate ['\n']
          (((splitOnChar '\n' c.data).drop (s - 1)).take
            (min e (splitOnChar '\n' c.data).length - (s - 1)))⟩ := by
  have htp := truthy_some hp
  simp only [handleView, htp, if_true]
  apply congrArg Except.ok
  apply congrArg String.mk
  apply congrArg
  apply List.take_eq_take.mpr
  rw [List.length_drop]
  omega

/-- C5 witness: the range theorem applied to a three-line file with a range
reaching past the end. -/
theorem c5_view_range_witness :
    ("/memories/f.md" : String) ≠ "" ∧ 1 ≤ 2 ∧ 2 ≤ 10 ∧
    handleView "/home/user/.mcp/memories" (some (.file "l1\nl2\nl3"))
        (some "/memories/f.md") (some (2, 10))
      = .ok ⟨List.intercalate ['\n']
          (((splitOnChar '\n' ("l1\nl2\nl3" : String).data).drop (2 - 1)).take
            (min 10 (splitOnChar '\n' ("l1\nl2\nl3" : String).data).length
              - (2 - 1)))⟩ :=
  ⟨by decide, by decide, by decide,
    c5_view_range "/home/user/.mcp/memories" "l1\nl2\nl3" "/memories/f.md"
      (by decide) 2 10 (by decide) (by decide)⟩

/-- C6 counterexample: `insert` with every argument supplied but
`insert_text = ""` fails with the "is required" assertion (empty string is
falsy) instead of inserting an empty line; the file is left unchanged. -/
theorem c6_counterexample :
    (handleInsert (some (.file "a\nb")) (some "/memories/x.md") (some 1)
        (some "")).1
      = .error (.missingArgument "insert_text is required for insert command") ∧
    contentOf (handleInsert (some (.file "a\nb")) (some "/memories/x.md") (some 1)
        (some "")).2 = some "a\nb" ∧
    some ("a\nb" : String) ≠ some ("\na\nb" : String) := by
  refine ⟨by decide, by decide, by decide⟩

/-- C6 (corrected): for an existing file, `insert(path, k, text)` with
`k ≥ 1` and *nonempty* `text` splits on `\n`, inserts `text` at index
`k - 1` (later lines shift down), rejoins and writes back; when `k` exceeds
the line count the text is appended at the end without error. -/
theorem c6_insert (c p t : String) (hp : p ≠ "") (ht : t ≠ "") (k : Nat)
    (hk : 1 ≤ k) :
    handleInsert (some (.file c)) (some p) (some k) (some t)
      = (.ok ("Inserted at line " ++ toString k ++ " in " ++ p),
         some (.file ⟨List.intercalate ['\n']
           ((splitOnChar '\n' c.data).take (k - 1) ++ [t.data]
             ++ (splitOnChar '\n' c.data).drop (k - 1))⟩)) ∧
    ((splitOnChar '\n' c.data).length < k →
      handleInsert (some (.file c)) (some p) (some k) (some t)
        = (.ok ("Inserted at line " ++ toString k ++ " in " ++ p),
           some (.file ⟨List.intercalate ['\n']
             (splitOnChar '\n' c.data ++ [t.data])⟩))) := by
  have htp := truthy_some hp
  have htt := truthy_some ht
  have htk : truthyNat (some k) = true := by
    simp only [truthyNat, ne_eq, bne_iff_ne]
    omega
  have hmain : handleInsert (some (.file c)) (some p) (some k) (some t)
      = (.ok ("Inserted at line " ++ toString k ++ " in " ++ p),
         some (.file ⟨List.intercalate ['\n']
           ((splitOnChar '\n' c.data).take (k - 1) ++ [t.data]
             ++ (splitOnChar '\n' c.data).drop (k - 1))⟩)) := by
    simp only [handleInsert, htp, htt, htk, Bool.not_true, Bool.false_eq_true,
      if_false, Option.getD_some]
  refine ⟨hmain, fun hlen => ?_⟩
  rw [hmain]
  have h1 : (splitOnChar '\n' c.data).take (k - 1) = splitOnChar '\n' c.data :=
    List.take_of_length_le (by omega)
  have h2 : (splitOnChar '\n' c.data).drop (k - 1) = [] :=
    List.drop_eq_nil_of_le (by omega)
  rw [h1, h2, List.append_nil]

/-- C6 witness: inserting `NEW` at line 2 of `a\nb\nc`, and appending via an
out-of-range line number. -/
theorem c6_insert_witness :
    ("/memories/n.md" : String) ≠ "" ∧ ("NEW" : String) ≠ "" ∧ 1 ≤ 2 ∧
    (handleInsert (some (.file "a\nb\nc")) (some "/memories/n.md") (some 2)
        (some "NEW")
      = (.ok ("Inserted at line " ++ toString 2 ++ " in " ++ "/memories/n.md"),
         some (.file ⟨List.intercalate ['\n']
           ((splitOnChar '\n' ("a\nb\nc" : String).data).take (2 - 1)
             ++ [("NEW" : String).data]
             ++ (splitOnChar '\n' ("a\nb\nc" : String).data).drop (2 - 1))⟩)) ∧
      ((splitOnChar '\n' ("a\nb\nc" : String).data).length < 2 →
        handleInsert (some (.file "a\nb\nc")) (some "/memories/n.md") (some 2)
            (some "NEW")
          = (.ok ("Inserted at line " ++ toString 2 ++ " in " ++ "/memories/n.md"),
             some (.file ⟨List.intercalate ['\n']
               (splitOnChar '\n' ("a\nb\nc" : String).data
                 ++ [("NEW" : String).data])⟩)))) :=
  ⟨by decide, by decide, by decide,
    c6_insert "a\nb\nc" "/memories/n.md" "NEW" (by decide) (by decide) 2
      (by decide)⟩

/-- C7 (confirmed): `create(p, t)` succeeds whenever `p` is a nonempty
virtual path and the target is not an existing directory (in particular it
overwrites an existing file), and a subsequent `view(p)` with no range
returns exactly `t` — or the empty string when `file_text` was omitted. -/
theorem c7_create_then_view (root : String) (node : Option FsNode)
    (hnode : notDir node = true) (p : String) (hp : p ≠ "") (t : Option String) :
    (handleCreate node (some p) t).1 = .ok ("Created: " ++ p) ∧
    (∀ s : String, t = some s →
      handleView root (handleCreate node (some p) t).2 (some p) none = .ok s) ∧
    (t = none →
      handleView root (handleCreate node (some p) t).2 (some p) none = .ok "") := by
  have htp := truthy_some hp
  have hcr : handleCreate node (some p) t
      = (.ok ("Created: " ++ p), some (.file (jsOrElse t ""))) := by
    cases node with
    | none => simp [handleCreate, htp, Option.getD_some]
    | some fn =>
      cases fn with
      | file c => simp [handleCreate, htp, Option.getD_some]
      | dir cs => rw [notDir] at hnode; cases hnode
  refine ⟨by rw [hcr], ?_, ?_⟩
  · intro s hs
    subst hs
    rw [hcr]
    have hj : jsOrElse (some s) "" = s := by
      rw [jsOrElse]
      cases hse : s.data.isEmpty with
      | false => rw [if_neg (by simp [hse])]
      | true =>
        rw [if_pos (by simp [hse])]
        obtain ⟨l⟩ := s
        rw [string_data_mk] at hse
        rw [List.isEmpty_iff.mp hse]

    rw [hj]
    simp [handleView, htp]
  · intro hn
    subst hn
    rw [hcr]
    simp [handleView, htp, jsOrElse]

/-- C7 witness: create-then-view round trip at a concrete path, content and
prior file, plus the omitted-text case. -/
theorem c7_create_then_view_witness :
    notDir (some (.file "old")) = true ∧ ("/memories/c.md" : String) ≠ "" ∧
    ((handleCreate (some (.file "old")) (some "/memories/c.md")
        (some "hello world")).1 = .ok ("Created: " ++ "/memories/c.md") ∧
     (∀ s : String, some ("hello world" : String) = some s →
       handleView "/root" (handleCreate (some (.file "old"))
           (some "/memories/c.md") (some "hello world")).2
         (some "/memories/c.md") none = .ok s) ∧
     (some ("hello world" : String) = none →
       handleView "/root" (handleCreate (some (.file "old"))
           (some "/memories/c.md") (some "hello world")).2
         (some "/memories/c.md") none = .ok "")) :=
  ⟨by decide, by decide,
    c7_create_then_view "/root" (some (.file "old")) (by decide) "/memories/c.md"
      (by decide) (some "hello world")⟩

/-- C8 counterexample: `/memoriesfoo` is a valid virtual path in the
claim's sense (it passes validation, whose root check is a bare string
prefix), but the round trip yields `/memories/foo`, which differs from any
normalization of `/memoriesfoo` by more than trailing slashes or redundant
segments. -/
theorem c8_counterexample :
    pathLike "/memoriesfoo" = .ok "/memoriesfoo" ∧
    toVirtualPath (MEMORIES_ROOT "/home/user")
        (toFsPath (MEMORIES_ROOT "/home/user") "/memoriesfoo") = "/memories/foo" ∧
    vnormS "/memories/foo" ≠ vnormS "/memoriesfoo" := by
  refine ⟨by decide, by decide, by decide⟩

/-- C8 (corrected): the round trip `toVirtualPath (toFsPath q) ~ q` (up to
trailing-slash and redundant-segment normalization) holds for validated
paths whose `/memories` marker is the whole path or is followed by a
separator; for marker-glued names like `/memoriesfoo` it fails (see the
counterexample). -/
theorem c8_roundtrip (R : List Seg) (hR : R ≠ []) (hc : R.all segClean = true)
    (p q : String) (hv : pathLike p = .ok q)
    (hsep : q = "/memories" ∨ "/memories/".data.isPrefixOf q.data = true) :
    vnormS (toVirtualPath (absPath R) (toFsPath (absPath R) q)) = vnormS q := by
  obtain ⟨-, -, hdd, -⟩ := pathLike_ok_spec hv
  have hb := containsSub_stripMem_false hdd
  have hE := filter_goodSeg_all_segClean (b := stripMemChars q.data) (splitOnChar_no_dotdot hb)
  set E := (splitOnChar '/' (stripMemChars q.data)).filter goodSeg with hEdef
  have hfs : toFsPath (absPath R) q = absPath (R ++ E) := by
    rw [toFsPath, posixJoin_absPath R hR hc _ (splitOnChar_no_dotdot hb)]
  have htv : toVirtualPath (absPath R) (toFsPath (absPath R) q)
      = ⟨"/memories/".data ++ List.intercalate ['/'] E⟩ := by
    rw [hfs, toVirtualPath_absPath R E hR hc hE]
  rw [htv, vnormS_memPrefix E hE]
  rcases hsep with rfl | h10
  · have hE0 : E = [] := by rw [hEdef]; rfl
    rw [hE0]
    decide
  · obtain ⟨rel, hrel⟩ := List.isPrefixOf_iff_prefix.mp h10
    have hstrip : stripMemChars q.data = rel := by
      rw [stripMemChars, if_pos h10, ← hrel]
      have h10len : ("/memories/".data : List Char).length = 10 := rfl
      rw [← h10len, List.drop_left]
    rw [vnormS, ← hrel]
    have hsplitq : splitOnChar '/' ("/memories/".data ++ rel)
        = [[], "memories".data] ++ splitOnChar '/' rel := by
      have hx : ("/memories/".data ++ rel : List Char)
          = "/memories".data ++ '/' :: rel := rfl
      rw [hx, splitOnChar_append]
      rfl
    rw [hsplitq, List.filter_append]
    rw [show List.filter goodSeg [[], "memories".data] = ["memories".data] from rfl]
    rw [hEdef, hstrip]
    rfl

/-- C8 witness: the round-trip theorem applied at a concrete home and a
concrete validated path with redundant segments. -/
theorem c8_roundtrip_witness :
    (["home".data, "user".data, ".mcp".data, "memories".data] : List Seg) ≠ [] ∧
    (["home".data, "user".data, ".mcp".data, "memories".data] : List Seg).all
        segClean = true ∧
    pathLike "/memories/a//b/./c" = .ok "/memories/a//b/./c" ∧
    (("/memories/a//b/./c" : String) = "/memories"
      ∨ "/memories/".data.isPrefixOf ("/memories/a//b/./c" : String).data = true) ∧
    vnormS (toVirtualPath
        (absPath ["home".data, "user".data, ".mcp".data, "memories".data])
        (toFsPath (absPath ["home".data, "user".data, ".mcp".data, "memories".data])
          "/memories/a//b/./c"))
      = vnormS "/memories/a//b/./c" :=
  ⟨by decide, by decide, by decide, Or.inr (by decide),
    c8_roundtrip _ (by decide) (by decide) "/memories/a//b/./c"
      "/memories/a//b/./c" (by decide) (Or.inr (by decide))⟩

/-- C9 (confirmed): viewing an existing directory (real path
`absPath (R ++ B)` under Storage Root `absPath R`) returns its recursive
listing: the walk refines a segment-level enumeration in which every
descendant — file, directory, or empty directory, at any depth — appears
exactly once as its virtual path, with `/` appended to directories and no
marker on files; a directory entry is emitted before everything in its
subtree; an empty directory yields the sentinel `No files found.`, and both
sentinels are nonempty strings. -/
theorem c9_directory_listing (R B : List Seg) (hR : R ≠ [])
    (hcR : R.all segClean = true) (hcB : B.all segClean = true)
    (cs : List Dirent) (hwf : wfMany cs = true) (p : String) (hp : p ≠ "")
    (hfs : toFsPath (absPath R) p = absPath (R ++ B)) :
    (∀ range, handleView (absPath R) (some (.dir cs)) (some p) range
        = .ok (listDirectory (absPath R) true (absPath (R ++ B)) cs)) ∧
    walkMany (absPath (R ++ B)) cs
      = (walkSegsMany B cs).map (fun x => (absPath (R ++ x.1), x.2)) ∧
    (∀ s bb, IsDesc B cs s bb ↔ (s, bb) ∈ walkSegsMany B cs) ∧
    (∀ e ∈ walkSegsMany B cs,
      ((walkMany (absPath (R ++ B)) cs).map
          (fun e2 => toVirtualPath (absPath R) e2.1
            ++ (if e2.2 then "/" else ""))).count
        (⟨"/memories/".data ++ List.intercalate ['/'] e.1
            ++ (if e.2 then ['/'] else [])⟩ : String) = 1) ∧
    (∀ e1 e2, e1 ∈ walkSegsMany B cs → e2 ∈ walkSegsMany B cs →
      e1.1 <+: e2.1 → e1.1 ≠ e2.1 →
      List.Sublist [(absPath (R ++ e1.1), e1.2), (absPath (R ++ e2.1), e2.2)]
        (walkMany (absPath (R ++ B)) cs)) ∧
    (walkMany (absPath (R ++ B)) cs ≠ [] →
      listDirectory (absPath R) true (absPath (R ++ B)) cs
        = ⟨List.intercalate ['\n']
            (((walkMany (absPath (R ++ B)) cs).map
              (fun e2 => toVirtualPath (absPath R) e2.1
                ++ (if e2.2 then "/" else ""))).map String.data)⟩) ∧
    (cs = [] →
      listDirectory (absPath R) true (absPath (R ++ B)) cs = "No files found.") ∧
    ("No files found." : String) ≠ "" ∧
    ("Directory is empty or does not exist." : String) ≠ "" := by
  have hrefine := walkMany_refine R hR hcR B hcB cs hwf
  have hclean : ∀ x ∈ walkSegsMany B cs, x.1.all segClean = true ∧ x.1 ≠ [] := by
    intro x hx
    obtain ⟨r, hr1, hr2, _, hr4⟩ := walkSegsMany_ext B cs hwf x hx
    constructor
    · rw [hr4, List.all_append, hcB, hr2]; rfl
    · rw [hr4]
      intro hh
      exact hr1 (List.append_eq_nil.mp hh).2
  refine ⟨?_, hrefine, fun s bb => walkSegs_isDesc_iff B cs s bb, ?_, ?_, ?_, ?_,
    by decide, by decide⟩
  · intro range
    have htp := truthy_some hp
    simp only [handleView, htp, if_true, Option.getD_some, hfs]
  · intro e he
    obtain ⟨hce, hne⟩ := hclean e he
    have hlines : (walkMany (absPath (R ++ B)) cs).map
        (fun e2 => toVirtualPath (absPath R) e2.1 ++ (if e2.2 then "/" else ""))
        = (walkSegsMany B cs).map
            (fun x => (⟨"/memories/".data ++ List.intercalate ['/'] x.1
              ++ (if x.2 then ['/'] else [])⟩ : String)) := by
      rw [hrefine, List.map_map]
      apply List.map_congr_left
      intro x hx
      obtain ⟨hcx, _⟩ := hclean x hx
      exact segLine_eq R hR hcR x hcx
    rw [hlines]
    have hnodup : ((walkSegsMany B cs).map
        (fun x => (⟨"/memories/".data ++ List.intercalate ['/'] x.1
          ++ (if x.2 then ['/'] else [])⟩ : String))).Nodup := by
      apply List.Nodup.map_on
      · intro x hx y hy hxy
        obtain ⟨hcx, hnx⟩ := hclean x hx
        obtain ⟨hcy, hny⟩ := hclean y hy
        have hdata : "/memories/".data ++ List.intercalate ['/'] x.1
            ++ (if x.2 then ['/'] else [])
            = "/memories/".data ++ List.intercalate ['/'] y.1
              ++ (if y.2 then ['/'] else []) := by
          have h0 := congrArg String.data hxy
          simpa using h0
        obtain ⟨h1, h2⟩ := listing_line_inj hcx hcy hnx hny hdata
        exact Prod.ext h1 h2
      · exact (walkSegsMany_nodup B cs hwf).of_map Prod.fst
    exact List.count_eq_one_of_mem hnodup (List.mem_map_of_mem _ he)
  · intro e1 e2 he1 he2 hpre hne
    have hsub := walkSegsMany_order B cs hwf e1 e2 he1 he2 hpre hne
    have hmap := hsub.map (fun x => (absPath (R ++ x.1), x.2))
    rw [← hrefine] at hmap
    simpa using hmap
  · intro hnil
    rw [listDirectory]
    simp only [Bool.not_true, Bool.false_eq_true, if_false]
    have hlen : 0 < ((walkMany (absPath (R ++ B)) cs).map
        (fun e2 => toVirtualPath (absPath R) e2.1
          ++ (if e2.2 then "/" else ""))).length := by
      rw [List.length_map]
      cases hw : walkMany (absPath (R ++ B)) cs with
      | nil => exact absurd hw hnil
      | cons a t => simp
    rw [if_pos hlen]
  · intro hcs
    subst hcs
    rw [listDirectory]
    simp [walkMany]

/-- C9 witness: the listing theorem applied at a concrete home, the
directory `/memories` itself, and the spec's example tree with one file
`a.md` and one subdirectory `b/` containing `c.md`. -/
theorem c9_directory_listing_witness :
    (["home".data, "user".data, ".mcp".data, "memories".data] : List Seg) ≠ [] ∧
    (["home".data, "user".data, ".mcp".data, "memories".data] : List Seg).all
        segClean = true ∧
    ([] : List Seg).all segClean = true ∧
    wfMany [Dirent.file "a.md", Dirent.dir "b" [Dirent.file "c.md"]] = true ∧
    ("/memories" : String) ≠ "" ∧
    toFsPath (absPath ["home".data, "user".data, ".mcp".data, "memories".data])
        "/memories"
      = absPath (["home".data, "user".data, ".mcp".data, "memories".data] ++ []) ∧
    ((∀ range, handleView
          (absPath ["home".data, "user".data, ".mcp".data, "memories".data])
          (some (.dir [Dirent.file "a.md", Dirent.dir "b" [Dirent.file "c.md"]]))
          (some "/memories") range
        = .ok (listDirectory
            (absPath ["home".data, "user".data, ".mcp".data, "memories".data]) true
            (absPath (["home".data, "user".data, ".mcp".data, "memories".data]
              ++ []))
            [Dirent.file "a.md", Dirent.dir "b" [Dirent.file "c.md"]])) ∧
      walkMany (absPath (["home".data, "user".data, ".mcp".data, "memories".data]
          ++ []))
          [Dirent.file "a.md", Dirent.dir "b" [Dirent.file "c.md"]]
        = (walkSegsMany [] [Dirent.file "a.md", Dirent.dir "b" [Dirent.file "c.md"]]).map
            (fun x =>
              (absPath (["home".data, "user".data, ".mcp".data, "memories".data]
                ++ x.1), x.2)) ∧
      (∀ s bb, IsDesc [] [Dirent.file "a.md", Dirent.dir "b" [Dirent.file "c.md"]] s bb
        ↔ (s, bb) ∈ walkSegsMany []
            [Dirent.file "a.md", Dirent.dir "b" [Dirent.file "c.md"]]) ∧
      (∀ e ∈ walkSegsMany [] [Dirent.file "a.md", Dirent.dir "b" [Dirent.file "c.md"]],
        ((walkMany (absPath (["home".data, "user".data, ".mcp".data,
              "memories".data] ++ []))
            [Dirent.file "a.md", Dirent.dir "b" [Dirent.file "c.md"]]).map
            (fun e2 => toVirtualPath
              (absPath ["home".data, "user".data, ".mcp".data, "memories".data])
              e2.1 ++ (if e2.2 then "/" else ""))).count
          (⟨"/memories/".data ++ List.intercalate ['/'] e.1
              ++ (if e.2 then ['/'] else [])⟩ : String) = 1) ∧
      (∀ e1 e2, e1 ∈ walkSegsMany []
          [Dirent.file "a.md", Dirent.dir "b" [Dirent.file "c.md"]] →
        e2 ∈ walkSegsMany []
          [Dirent.file "a.md", Dirent.dir "b" [Dirent.file "c.md"]] →
        e1.1 <+: e2.1 → e1.1 ≠ e2.1 →
        List.Sublist
          [(absPath (["home".data, "user".data, ".mcp".data, "memories".data]
              ++ e1.1), e1.2),
           (absPath (["home".data, "user".data, ".mcp".data, "memories".data]
              ++ e2.1), e2.2)]
          (walkMany (absPath (["home".data, "user".data, ".mcp".data,
              "memories".data] ++ []))
            [Dirent.file "a.md", Dirent.dir "b" [Dirent.file "c.md"]])) ∧
      (walkMany (absPath (["home".data, "user".data, ".mcp".data, "memories".data]
            ++ []))
          [Dirent.file "a.md", Dirent.dir "b" [Dirent.file "c.md"]] ≠ [] →
        listDirectory
            (absPath ["home".data, "user".data, ".mcp".data, "memories".data]) true
            (absPath (["home".data, "user".data, ".mcp".data, "memories".data]
              ++ []))
            [Dirent.file "a.md", Dirent.dir "b" [Dirent.file "c.md"]]
          = ⟨List.intercalate ['\n']
              (((walkMany (absPath (["home".data, "user".data, ".mcp".data,
                    "memories".data] ++ []))
                  [Dirent.file "a.md", Dirent.dir "b" [Dirent.file "c.md"]]).map
                (fun e2 => toVirtualPath
                  (absPath ["home".data, "user".data, ".mcp".data,
                    "memories".data]) e2.1
                  ++ (if e2.2 then "/" else ""))).map String.data)⟩) ∧
      (([Dirent.file "a.md", Dirent.dir "b" [Dirent.file "c.md"]] : List Dirent)
          = [] →
        listDirectory
            (absPath ["home".data, "user".data, ".mcp".data, "memories".data]) true
            (absPath (["home".data, "user".data, ".mcp".data, "memories".data]
              ++ []))
            [Dirent.file "a.md", Dirent.dir "b" [Dirent.file "c.md"]]
          = "No files found.") ∧
      ("No files found." : String) ≠ "" ∧
      ("Directory is empty or does not exist." : String) ≠ "") :=
  ⟨by decide, by decide, by decide, by decide, by decide, by decide,
    c9_directory_listing ["home".data, "user".data, ".mcp".data, "memories".data]
      [] (by decide) (by decide) (by decide)
      [Dirent.file "a.md", Dirent.dir "b" [Dirent.file "c.md"]] (by decide)
      "/memories" (by decide) (by decide)⟩

/-- C10 (confirmed): validation accepts any trimmed, traversal-free string
that merely starts with the nine characters `/memories` — no separator
required — and `toFsPath` strips only the marker plus at most one `/`, so
`/memoriesXYZ/a.md` resolves to `XYZ/a.md` under the Storage Root, the same
real path as `/memories/XYZ/a.md`. -/
theorem c10_prefix_quirk (R : List Seg) (hR : R ≠ []) (hc : R.all segClean = true) :
    pathLike "/memoriesXYZ/a.md" = .ok "/memoriesXYZ/a.md" ∧
    stripMemChars ("/memoriesXYZ/a.md" : String).data = ("XYZ/a.md" : String).data ∧
    toFsPath (absPath R) "/memoriesXYZ/a.md"
      = absPath (R ++ ["XYZ".data, "a.md".data]) ∧
    toFsPath (absPath R) "/memoriesXYZ/a.md"
      = toFsPath (absPath R) "/memories/XYZ/a.md" ∧
    (∀ t2 : String, t2.data = jsTrimChars t2.data →
      "/memories".data.isPrefixOf t2.data = true →
      containsSub t2.data ['.', '.'] = false →
      regexTraversal t2.data = false →
      pathLike t2 = .ok t2) := by
  refine ⟨by decide, by decide, ?_, ?_, ?_⟩
  · calc toFsPath (absPath R) "/memoriesXYZ/a.md"
        = posixJoin (absPath R) ⟨("XYZ/a.md" : String).data⟩ := by
          rw [toFsPath]
          exact congrArg _ (congrArg String.mk (by decide))
      _ = absPath (R ++ (splitOnChar '/' ("XYZ/a.md" : String).data).filter goodSeg) :=
          posixJoin_absPath R hR hc _ (by decide)
      _ = absPath (R ++ ["XYZ".data, "a.md".data]) := by
          rw [show (splitOnChar '/' ("XYZ/a.md" : String).data).filter goodSeg
              = ["XYZ".data, "a.md".data] from by decide]
  · rw [toFsPath, toFsPath]
    exact congrArg _ (congrArg String.mk (by decide))
  · intro t2 htrim hpre hdd henc
    rw [pathLike, ← htrim, hpre, hdd, henc]
    simp only [Bool.not_true, Bool.false_eq_true, if_false]

/-- C10 witness: the quirk theorem applied at a concrete home directory. -/
theorem c10_prefix_quirk_witness :
    (["home".data, "user".data, ".mcp".data, "memories".data] : List Seg) ≠ [] ∧
    (["home".data, "user".data, ".mcp".data, "memories".data] : List Seg).all
        segClean = true ∧
    toFsPath (absPath ["home".data, "user".data, ".mcp".data, "memories".data])
        "/memoriesXYZ/a.md"
      = toFsPath (absPath ["home".data, "user".data, ".mcp".data, "memories".data])
        "/memories/XYZ/a.md" :=
  ⟨by decide, by decide,
    (c10_prefix_quirk _ (by decide) (by decide)).2.2.2.1⟩

end McpMemory
